import Mathlib

/-!
# deduplicate: a verification development of `main.go`

The program walks a directory tree, hashes every regular file, keeps an index
(`files` table: `path TEXT UNIQUE, size INTEGER, hash TEXT`) of the first file
seen for every `(hash, size)` pair and renames every later file with the same
pair into `<dir>/duplicate_to_be_deleted/<base>`.

The embedding below follows `main.go` function by function.

* The filesystem is the list of the directory entries of its regular files,
  each under its absolute cleaned path, together with the working directory.
  A path given to the operating system is resolved (`filepath.Abs`) before it
  is looked up, so that `a.txt`, `./a.txt` and `/w/a.txt` name one entry. An
  entry holds an inode number and bytes; two entries with one inode number are
  hard links. There are no symbolic links.
* A directory exists where a file lies beneath it. `os.MkdirAll` fails when a
  regular file stands at the directory's path or at one above it; `os.Rename`
  fails when its destination is such a directory, and replaces a file that is
  stored at its destination.
* The `files` table is the list of its rows in insertion (rowid) order.
* The operating system may refuse any single call for a reason the entries do
  not show; what it refuses is given to every call as a `Faults` value.
* SHA-256 is a parameter `H` of the development (`hex(sha256(bytes))`).
* `path/filepath` (`Clean`, `Dir`, `Base`, `Join`, `IsAbs`, `Abs`) is written
  out for slash-separated paths.
-/

namespace Dedup

/-! ## `path/filepath` on slash-separated paths -/

/-- Cut a path at every separator: `"a//b"` gives `["a", "", "b"]`. -/
def splitSep : List Char → List (List Char)
  | [] => [[]]
  | c :: cs =>
    match splitSep cs with
    | [] => [[]]
    | w :: ws => if c = '/' then [] :: w :: ws else (c :: w) :: ws

/-- The element-wise part of `filepath.Clean`: empty and `.` elements are
dropped, `..` removes the element before it, a `..` that would climb above the
root of a rooted path is dropped and one that begins a relative path is kept.
`acc` is the stack of elements kept so far, last one first. -/
def cleanComps (rooted : Bool) : List (List Char) → List (List Char) → List (List Char)
  | acc, [] => acc.reverse
  | acc, c :: rest =>
    if c = [] ∨ c = ['.'] then cleanComps rooted acc rest
    else if c = ['.', '.'] then
      match acc with
      | [] => if rooted then cleanComps rooted [] rest else cleanComps rooted [c] rest
      | top :: acc' =>
        if top = ['.', '.'] then cleanComps rooted (c :: acc) rest
        else cleanComps rooted acc' rest
    else cleanComps rooted (c :: acc) rest

/-- Put elements back together with one separator between them. -/
def joinSep : List (List Char) → List Char
  | [] => []
  | [c] => c
  | c :: d :: rest => c ++ '/' :: joinSep (d :: rest)

/-- The function `filepath.Clean` on lists of characters. -/
def cleanChars (s : List Char) : List Char :=
  match s with
  | [] => ['.']
  | c :: _ =>
    let rooted : Bool := decide (c = '/')
    let body := joinSep (cleanComps rooted [] (splitSep s))
    if rooted then '/' :: body
    else if body = [] then ['.'] else body

/-- The function `filepath.Clean`. -/
def Clean (path : String) : String := String.mk (cleanChars path.data)

/-- The function `filepath.Dir`: everything up to the last separator, cleaned. -/
def Dir (path : String) : String :=
  String.mk (cleanChars (path.data.reverse.dropWhile (fun c => c != '/')).reverse)

/-- The function `filepath.Base`: the last element of the path; trailing
separators are removed first, an empty path has base `.` and a path of
separators only has base `/`. -/
def Base (path : String) : String :=
  if path.data = [] then "."
  else
    let trimmed := path.data.reverse.dropWhile (fun c => c == '/')
    let last := (trimmed.takeWhile (fun c => c != '/')).reverse
    if last = [] then "/" else String.mk last

/-- The function `filepath.Join`: the elements from the first non-empty one on,
joined by separators and cleaned; the empty string when all are empty. -/
def Join : List String → String
  | [] => ""
  | e :: rest =>
    if e.data = [] then Join rest
    else String.mk (cleanChars (joinSep ((e :: rest).map String.data)))

/-- The function `filepath.IsAbs`. -/
def IsAbs (path : String) : Bool :=
  match path.data with
  | c :: _ => decide (c = '/')
  | [] => false

/-- The function `filepath.Abs` in the working directory `cwd`. -/
def absPath (cwd path : String) : String :=
  if IsAbs path then Clean path else Join [cwd, path]

/-- Whether the second list begins with the first. -/
def startsWith : List Char → List Char → Bool
  | [], _ => true
  | _ :: _, [] => false
  | a :: as, b :: bs => decide (a = b) && startsWith as bs

/-- Whether the absolute cleaned path `k` lies beneath the directory with the
absolute cleaned path `d`. -/
def beneath (k d : String) : Bool :=
  if d = "/" then decide (k ≠ "/") else startsWith (d.data ++ ['/']) k.data

/-! ## Data model -/

/-- The bytes of a file. -/
abbrev Content := List Nat

/-- A regular file: its inode number and the bytes it holds. -/
structure File where
  ino : Nat
  bytes : Content
deriving DecidableEq, Repr

/-- The filesystem: the working directory and the directory entries of the
regular files, each under its absolute cleaned path. -/
structure FS where
  cwd : String
  entries : List (String × File)
deriving DecidableEq, Repr

/-- The entry a path names: its absolute cleaned form. -/
def FS.resolve (fs : FS) (path : String) : String := absPath fs.cwd path

/-- The regular file a path names, if any. -/
def FS.fileAt (fs : FS) (path : String) : Option File :=
  (fs.entries.find? (fun e => decide (e.1 = fs.resolve path))).map Prod.snd

/-- The bytes of the regular file a path names, if any. -/
def FS.bytesAt (fs : FS) (path : String) : Option Content :=
  (fs.fileAt path).map File.bytes

/-- Whether a path names a directory: some file lies beneath it. -/
def FS.isDir (fs : FS) (path : String) : Bool :=
  fs.entries.any (fun e => beneath e.1 (fs.resolve path))

/-- Whether a regular file stands at a path above the given one. -/
def FS.fileAbove (fs : FS) (path : String) : Bool :=
  fs.entries.any (fun e => beneath (fs.resolve path) e.1)

/-- Whether two paths name one file: one entry, or two entries with one inode
number. -/
def FS.sameFile (fs : FS) (p q : String) : Bool :=
  decide (fs.resolve p = fs.resolve q) ||
    (match fs.fileAt p, fs.fileAt q with
     | some a, some b => decide (a.ino = b.ino)
     | _, _ => false)

/-- The struct `FileInfo`, also one row of the `files` table. `Size` is an
`int64` in the source; it only ever holds a byte count. -/
structure FileInfo where
  Path : String
  Size : Int
  Hash : String
deriving DecidableEq, Repr

/-- The `files` table, rows in insertion order. -/
abbrev Index := List FileInfo

/-- What the operating system and the database refuse during one call of
`processFile`, for a reason that the entries and the rows do not show
(permissions, an empty directory at a destination, a full disk). -/
structure Faults where
  /-- `os.Open` or `io.Copy` returns an error. -/
  readFails : Bool
  /-- `db.QueryRow(...).Scan` returns an error other than `sql.ErrNoRows`. -/
  queryFails : Bool
  /-- `os.MkdirAll` returns an error. -/
  mkdirFails : Bool
  /-- `os.Rename` returns an error. -/
  renameFails : Bool
  /-- `db.Exec` of the `INSERT` returns an error other than the `UNIQUE` one. -/
  insertFails : Bool
deriving DecidableEq, Repr

/-- No call is refused. -/
def noFaults : Faults := ⟨false, false, false, false, false⟩

/-- The state the program works on: the filesystem and the `files` table. -/
structure World where
  fs : FS
  db : Index
deriving DecidableEq, Repr

/-- How a piece of the program ends: the state it leaves, and whether it ended
in `log.Fatal`, which exits the process. -/
structure Outcome where
  world : World
  fatal : Bool
deriving DecidableEq, Repr

/-! ## The functions of `main.go` -/

/-- The function `hashFile`: the hex digest and the byte count of the file at
`path`, or nothing when opening or reading fails.  The empty path names no
file. -/
def hashFile (H : Content → String) (io : Faults) (fs : FS) (path : String) :
    Option (String × Int) :=
  if io.readFails ∨ path = "" then none
  else
    match fs.fileAt path with
    | none => none
    | some file => some (H file.bytes, (file.bytes.length : Int))

/-- The function `checkDuplicate`: the path of the first row with this hash and
size (`QueryRow` keeps the first row of the result, SQLite scans the table in
rowid order), the empty string when there is no such row; nothing when the
query fails for another reason, where the source calls `log.Fatal`. -/
def checkDuplicate (io : Faults) (db : Index) (hash : String) (size : Int) : Option String :=
  if io.queryFails then none
  else
    match db.find? (fun r => decide (r.Hash = hash ∧ r.Size = size)) with
    | none => some ""
    | some r => some r.Path

/-- The call `os.MkdirAll`, which leaves the entries as they are: whether it
succeeds. It fails when refused, and when a regular file stands at the path or
at a path above it. -/
def osMkdirAll (io : Faults) (fs : FS) (dir : String) : Bool :=
  !io.mkdirFails && (fs.fileAt dir).isNone && !fs.fileAbove dir

/-- The call `os.Rename`. It fails when refused, when the source names no
file, when the destination is a directory and when a regular file stands above
the destination. When source and destination name one file it does nothing.
Otherwise the source's entry is removed and the destination's entry, replacing
one that was there, is now the source's file. -/
def osRename (io : Faults) (fs : FS) (src dst : String) : Option FS :=
  if io.renameFails then none
  else
    match fs.fileAt src with
    | none => none
    | some file =>
      if fs.isDir dst || fs.fileAbove dst then none
      else if fs.sameFile src dst then some fs
      else
        let others := fs.entries.filter
          (fun e => decide (e.1 ≠ fs.resolve src) && decide (e.1 ≠ fs.resolve dst))
        some ⟨fs.cwd, (fs.resolve dst, file) :: others⟩

/-- The directory that `handleDuplicate` creates for `duplicatePath`. -/
def dupDirOf (duplicatePath : String) : String :=
  Join [Dir duplicatePath, "duplicate_to_be_deleted"]

/-- The path that `handleDuplicate` renames `duplicatePath` to. -/
def quarantinePath (duplicatePath : String) : String :=
  Join [dupDirOf duplicatePath, Base duplicatePath]

/-- The function `handleDuplicate`: create the directory, rename the file into
it; when either call fails the filesystem is left as it was. -/
def handleDuplicate (io : Faults) (fs : FS) (duplicatePath _originalPath : String) : FS :=
  let dupDir := Join [Dir duplicatePath, "duplicate_to_be_deleted"]
  if osMkdirAll io fs dupDir = false then fs
  else
    let newPath := Join [dupDir, Base duplicatePath]
    match osRename io fs duplicatePath newPath with
    | none => fs
    | some fs' => fs'

/-- The function `saveFile`: insert the row; the insert is rejected when the
database refuses it or when a row with this path exists (`path TEXT UNIQUE`),
and then the table is left as it was. -/
def saveFile (io : Faults) (db : Index) (info : FileInfo) : Index :=
  if io.insertFails ∨ db.any (fun r => decide (r.Path = info.Path)) then db
  else db ++ [info]

/-- Lines 99 to 104 of `processFile`: what it does once `checkDuplicate` has
returned `existingPath`. -/
def resolveFile (io : Faults) (w : World) (path hash : String) (size : Int)
    (existingPath : String) : World :=
  if existingPath ≠ "" then
    { w with fs := handleDuplicate io w.fs path existingPath }
  else
    { w with db := saveFile io w.db ⟨path, size, hash⟩ }

/-- The function `processFile`. -/
def processFile (H : Content → String) (io : Faults) (w : World) (path : String) : Outcome :=
  match hashFile H io w.fs path with
  | none => ⟨w, false⟩
  | some (hash, size) =>
    match checkDuplicate io w.db hash size with
    | none => ⟨w, true⟩
    | some existingPath => ⟨resolveFile io w path hash size existingPath, false⟩

/-- Whether a call of `processFile` meets an error: one of the branches that
log `Error hashing file` (line 94), `Failed to create duplicate directory`
(line 152), `Failed to move duplicate file` (line 158) or `Failed to insert`
(line 171), or the `log.Fatal` of line 144. -/
def processFileFails (H : Content → String) (io : Faults) (w : World) (path : String) : Bool :=
  match hashFile H io w.fs path with
  | none => true
  | some (hash, size) =>
    match checkDuplicate io w.db hash size with
    | none => true
    | some existingPath =>
      if existingPath ≠ "" then
        !osMkdirAll io w.fs (dupDirOf path) ||
          (osRename io w.fs path (quarantinePath path)).isNone
      else
        io.insertFails || w.db.any (fun r => decide (r.Path = path))

/-- A sequential run: `processFile` on each path in turn, stopping at a
`log.Fatal`; `io p` is what is refused while `p` is processed. -/
def runSeq (H : Content → String) (io : String → Faults) (w : World) : List String → Outcome
  | [] => ⟨w, false⟩
  | p :: rest =>
    let o := processFile H (io p) w p
    if o.fatal then o else runSeq H io o.world rest

/-- Whether some call of `processFile` in a sequential run meets an error. -/
def runFails (H : Content → String) (io : String → Faults) (w : World) : List String → Bool
  | [] => false
  | p :: rest =>
    processFileFails H (io p) w p || runFails H io (processFile H (io p) w p).world rest

/-! ## The goroutines of `main` and `worker` -/

/-- Where the main goroutine stands. -/
inductive MainPc where
  /-- In `filepath.Walk`, the regular files still to be visited; with none
  left, at `wg.Wait()` (line 80). -/
  | walk (rest : List String)
  /-- After `wg.Add(1)`, blocked in `fileChan <- path` (line 72). -/
  | send (path : String) (rest : List String)
  /-- Past `wg.Wait()`, before `close(fileChan)` (line 81). -/
  | past
  /-- The channel is closed. -/
  | closed
deriving DecidableEq, Repr

/-- Where a worker goroutine stands. -/
inductive WorkerPc where
  /-- Blocked in `range fileChan` (line 85). -/
  | recv
  /-- Holds a path and is about to call `processFile` (line 86). -/
  | got (path : String)
  /-- In `processFile`, `checkDuplicate` has returned (line 98). -/
  | checked (path hash : String) (size : Int) (existingPath : String)
  /-- The call `processFile` has returned, `wg.Done()` is next (line 87). -/
  | processed (path : String)
  /-- The loop has ended because the channel is closed. -/
  | exited
deriving DecidableEq, Repr

/-- The whole program while it runs. `sent` and `completed` record which paths
went through the channel and for which paths `processFile` has returned. -/
structure Sys where
  main : MainPc
  wg : Int
  workers : List WorkerPc
  world : World
  sent : List String
  completed : List String
deriving DecidableEq, Repr

/-- One atomic step of one goroutine. -/
inductive Action where
  /-- The walk callback runs `wg.Add(1)` for the next file. -/
  | add
  /-- The unbuffered channel hands main's path to worker `i`. -/
  | send (i : Nat)
  /-- Worker `i` runs `hashFile` and `checkDuplicate`. -/
  | check (i : Nat) (io : Faults)
  /-- Worker `i` runs `handleDuplicate` or `saveFile`. -/
  | act (i : Nat) (io : Faults)
  /-- Worker `i` runs `wg.Done()`. -/
  | done (i : Nat)
  /-- The call `wg.Wait()` returns. -/
  | wait
  /-- The call `close(fileChan)`. -/
  | close
  /-- Worker `i` leaves its loop. -/
  | exit (i : Nat)
deriving DecidableEq, Repr

/-- The number of workers `main` starts (line 62). -/
def numWorkers : Nat := 10

/-- The program after `createTable` and the `go worker` loop: `n` workers wait
on the channel, the walk has `paths` to visit. -/
def initSys (n : Nat) (paths : List String) (w : World) : Sys :=
  { main := .walk paths, wg := 0, workers := List.replicate n .recv, world := w,
    sent := [], completed := [] }

/-- The step relation as a function: the state after the action, nothing when
the action cannot be taken in this state (or ends the process in `log.Fatal`). -/
def step (H : Content → String) (s : Sys) : Action → Option Sys
  | .add =>
    match s.main with
    | .walk (p :: rest) => some { s with main := .send p rest, wg := s.wg + 1 }
    | _ => none
  | .send i =>
    match s.main, s.workers[i]? with
    | .send p rest, some .recv =>
      some { s with main := .walk rest, workers := s.workers.set i (.got p),
                    sent := s.sent ++ [p] }
    | _, _ => none
  | .check i io =>
    match s.workers[i]? with
    | some (.got p) =>
      match hashFile H io s.world.fs p with
      | none =>
        some { s with workers := s.workers.set i (.processed p),
                      completed := s.completed ++ [p] }
      | some (hash, size) =>
        match checkDuplicate io s.world.db hash size with
        | none => none
        | some existingPath =>
          some { s with workers := s.workers.set i (.checked p hash size existingPath) }
    | _ => none
  | .act i io =>
    match s.workers[i]? with
    | some (.checked p hash size existingPath) =>
      some { s with world := resolveFile io s.world p hash size existingPath,
                    workers := s.workers.set i (.processed p),
                    completed := s.completed ++ [p] }
    | _ => none
  | .done i =>
    match s.workers[i]? with
    | some (.processed _) =>
      some { s with wg := s.wg - 1, workers := s.workers.set i .recv }
    | _ => none
  | .wait =>
    match s.main with
    | .walk [] => if s.wg = 0 then some { s with main := .past } else none
    | _ => none
  | .close =>
    match s.main with
    | .past => some { s with main := .closed }
    | _ => none
  | .exit i =>
    match s.main, s.workers[i]? with
    | .closed, some .recv => some { s with workers := s.workers.set i .exited }
    | _, _ => none

/-- Run a schedule, one action after the other. -/
def exec (H : Content → String) (s : Sys) : List Action → Option Sys
  | [] => some s
  | a :: rest =>
    match step H s a with
    | none => none
    | some s' => exec H s' rest

/-- The path a worker is working on: received, `wg.Done()` not yet called. -/
def WorkerPc.busyWith : WorkerPc → Option String
  | .got p => some p
  | .checked p _ _ _ => some p
  | .processed p => some p
  | _ => none

/-- The path a worker holds for which `processFile` has not returned. -/
def WorkerPc.inProcess : WorkerPc → Option String
  | .got p => some p
  | .checked p _ _ _ => some p
  | _ => none

/-- A worker that has received a path and not yet called `wg.Done()`. -/
def WorkerPc.busy (w : WorkerPc) : Bool := w.busyWith.isSome

/-- One when main has run `wg.Add(1)` for a path it has not yet handed over. -/
def MainPc.pending : MainPc → Nat
  | .send _ _ => 1
  | _ => 0

/-- Main is past `wg.Wait()`. -/
def MainPc.pastWait : MainPc → Bool
  | .past => true
  | .closed => true
  | _ => false

/-- The run is over: the channel is closed and every worker has left. -/
def Sys.finished (s : Sys) : Bool :=
  decide (s.main = .closed) && s.workers.all (fun w => decide (w = .exited))

/-- What holds in every state of the running program: the `WaitGroup` counter
counts the busy workers plus a path main has announced and not handed over;
past `wg.Wait()` it is zero; and the paths sent are the paths completed
together with those still inside `processFile`. -/
def SysInv (s : Sys) : Prop :=
  s.wg = ((s.workers.countP WorkerPc.busy : Nat) : Int) + (s.main.pending : Int) ∧
    (s.main.pastWait = true → s.wg = 0) ∧
    s.sent.Perm (s.completed ++ s.workers.filterMap WorkerPc.inProcess)

/-! ## Vocabulary of the statements -/

/-- The dedup key of a row. -/
def FileInfo.key (r : FileInfo) : String × Int := (r.Hash, r.Size)

/-- The dedup key of a file's bytes. -/
def keyOf (H : Content → String) (bytes : Content) : String × Int :=
  (H bytes, (bytes.length : Int))

/-- The row `processFile` writes for a file. -/
def recordOf (H : Content → String) (f : String × Content) : FileInfo :=
  ⟨f.1, (f.2.length : Int), H f.2⟩

/-- The rows of the files that are the first of their key, in the order of
the list. -/
def originals (H : Content → String) (files : List (String × Content)) : Index :=
  files.foldl
    (fun db f => if db.any (fun r => decide (r.key = keyOf H f.2)) then db
      else db ++ [recordOf H f]) []

/-- The state after a sequential run on `paths`. -/
def worldAfter (H : Content → String) (io : String → Faults) (w : World)
    (paths : List String) : World :=
  (runSeq H io w paths).world

/-- What the statement about sequential runs assumes of the list of files: each
is a readable file of `fs0` with the listed bytes, the paths name distinct
files, and no path names the quarantine destination of another file of the
list. -/
def Listed (fs0 : FS) (files : List (String × Content)) : Prop :=
  (∀ f ∈ files, f.1 ≠ "" ∧ fs0.bytesAt f.1 = some f.2) ∧
    (files.map (fun f => fs0.resolve f.1)).Nodup ∧
    ∀ f ∈ files, ∀ g ∈ files, f ≠ g → fs0.resolve f.1 ≠ fs0.resolve (quarantinePath g.1)

/-- The statement that `fs2` is `fs1` after the file named `src` moved to
`dst`: `dst` names that file, `src` names no file, and every path that names
neither entry names what it named. -/
def MovedTo (fs1 fs2 : FS) (src dst : String) : Prop :=
  ∃ file, fs1.fileAt src = some file ∧ fs2.fileAt dst = some file ∧ fs2.fileAt src = none ∧
    fs2.cwd = fs1.cwd ∧
    ∀ x, fs1.resolve x ≠ fs1.resolve src → fs1.resolve x ≠ fs1.resolve dst →
      fs2.fileAt x = fs1.fileAt x

/-- The statement that `fs2` is `fs1` after a successful `os.Rename` of `src`
to `dst`: nothing has changed when both named one file, and the file has
moved otherwise. -/
def Renamed (fs1 fs2 : FS) (src dst : String) : Prop :=
  (fs1.sameFile src dst = true → fs2 = fs1) ∧
    (fs1.sameFile src dst = false → MovedTo fs1 fs2 src dst)

/-! ## Concrete data for the examples -/

/-- The bytes of an ASCII string. -/
def bytesOf (s : String) : Content := s.data.map Char.toNat

/-- A stand-in digest for the examples: the bytes read as characters, so that
different ASCII contents have different digests. -/
def toyHash (bytes : Content) : String := String.mk (bytes.map Char.ofNat)

/-- The entries of a list of files in the working directory `cwd`, with inode
numbers counted from `n`. -/
def entriesOf (cwd : String) : Nat → List (String × Content) → List (String × File)
  | _, [] => []
  | n, f :: rest => (absPath cwd f.1, ⟨n, f.2⟩) :: entriesOf cwd (n + 1) rest

/-- A filesystem given by the list of its files, with working directory `/w`. -/
def fsOf (files : List (String × Content)) : FS :=
  { cwd := "/w", entries := entriesOf "/w" 0 files }

/-- The one-byte contents `X`, `Y` and `Z` of the examples. -/
def bytesX : Content := bytesOf "X"

/-- See `bytesX`. -/
def bytesY : Content := bytesOf "Y"

/-- See `bytesX`. -/
def bytesZ : Content := bytesOf "Z"

/-- The scenario tree: `a.txt` and `b/a.txt` hold `X`, `c.txt` holds `Y`. -/
def scenarioTree : List (String × Content) :=
  [("a.txt", bytesX), ("b/a.txt", bytesX), ("c.txt", bytesY)]

/-- A tree in which a file already sits where a duplicate will be moved to. -/
def collisionTree : List (String × Content) :=
  [("a.txt", bytesX), ("d/duplicate_to_be_deleted/x.txt", bytesZ), ("d/x.txt", bytesX)]

/-- A tree in which a regular file has the name of the quarantine directory of
the duplicate `b/a.txt`. -/
def blockedTree : List (String × Content) :=
  [("a.txt", bytesX), ("b/a.txt", bytesX), ("b/duplicate_to_be_deleted", bytesZ)]

/-- Two files with the same bytes at different paths. -/
def twinTree : List (String × Content) := [("a.txt", bytesX), ("b.txt", bytesX)]

/-- A schedule in which workers 0 and 1 both run `checkDuplicate` before either
runs `saveFile`; the other eight workers never receive a path. -/
def racingSchedule : List Action :=
  [.add, .send 0, .add, .send 1,
   .check 0 noFaults, .check 1 noFaults, .act 0 noFaults, .act 1 noFaults,
   .done 0, .done 1, .wait, .close,
   .exit 0, .exit 1, .exit 2, .exit 3, .exit 4, .exit 5, .exit 6, .exit 7, .exit 8, .exit 9]

/-- A schedule of the whole program on the scenario tree, up to the return of
`wg.Wait()`: `c.txt` is sent while workers 0 and 1 are already processing. -/
def scenarioSchedule : List Action :=
  [.add, .send 0, .add, .send 1, .check 0 noFaults, .check 1 noFaults,
   .act 0 noFaults, .add, .send 2, .act 1 noFaults, .done 0,
   .check 2 noFaults, .act 2 noFaults, .done 1, .done 2, .wait]

/-- The program with `a.txt` handed to worker 0 and nothing else under way. -/
def oneSentState : Sys :=
  { main := .walk ["b/a.txt", "c.txt"], wg := 1,
    workers := .got "a.txt" :: List.replicate 9 .recv,
    world := ⟨fsOf scenarioTree, []⟩, sent := ["a.txt"], completed := [] }

/-- Only `os.Open` is refused. -/
def readFault : Faults := ⟨true, false, false, false, false⟩

/-- Only `os.MkdirAll` is refused. -/
def mkdirFault : Faults := ⟨false, false, true, false, false⟩

/-- Only `os.Rename` is refused. -/
def renameFault : Faults := ⟨false, false, false, true, false⟩


/-! ## Basic facts -/

theorem handleDuplicate_def (io : Faults) (fs : FS) (d o : String) :
    handleDuplicate io fs d o =
      if osMkdirAll io fs (dupDirOf d) = false then fs
      else match osRename io fs d (quarantinePath d) with
        | none => fs
        | some fs2 => fs2 := rfl

theorem find?_filter_keep (l : List (String × File)) (k : String)
    (P : String × File → Bool) (hP : ∀ e ∈ l, e.1 = k → P e = true) :
    (l.filter P).find? (fun e => decide (e.1 = k)) = l.find? (fun e => decide (e.1 = k)) := by
  induction l with
  | nil => rfl
  | cons e rest ih =>
    have ih2 := ih (fun x hx => hP x (List.mem_cons_of_mem _ hx))
    by_cases hk : e.1 = k
    · have hpe : P e = true := hP e (List.mem_cons_self _ _) hk
      simp [List.filter_cons, hpe, List.find?_cons, hk]
    · by_cases hpe : P e = true
      · simp [List.filter_cons, hpe, List.find?_cons, hk, ih2]
      · simp [List.filter_cons, hpe, List.find?_cons, hk, ih2]

theorem find?_filter_drop (l : List (String × File)) (k : String)
    (P : String × File → Bool) (hP : ∀ e ∈ l, e.1 = k → P e = false) :
    (l.filter P).find? (fun e => decide (e.1 = k)) = none := by
  rw [List.find?_eq_none]
  intro e he
  have hmem := List.mem_filter.mp he
  intro hk
  have hk2 : e.1 = k := by simpa using hk
  have := hP e hmem.1 hk2
  rw [hmem.2] at this
  exact absurd this (by simp)

theorem osRename_cwd (io : Faults) (fs fs2 : FS) (src dst : String)
    (h : osRename io fs src dst = some fs2) : fs2.cwd = fs.cwd := by
  unfold osRename at h
  split at h
  · exact absurd h (by simp)
  · split at h
    · exact absurd h (by simp)
    · split at h
      · exact absurd h (by simp)
      · split at h
        · cases h
          rfl
        · cases h
          rfl

theorem osRename_renamed (io : Faults) (fs fs2 : FS) (src dst : String)
    (h : osRename io fs src dst = some fs2) : Renamed fs fs2 src dst := by
  unfold osRename at h
  split at h
  · exact absurd h (by simp)
  · split at h
    · exact absurd h (by simp)
    · rename_i file hfile
      split at h
      · exact absurd h (by simp)
      · split at h
        · rename_i hsame
          cases h
          exact ⟨fun _ => rfl, fun hf => absurd hsame (by simp [hf])⟩
        · rename_i hsame
          cases h
          refine ⟨fun ht => absurd ht hsame, fun _ => ?_⟩
          have hne : fs.resolve src ≠ fs.resolve dst := by
            intro heq
            apply hsame
            simp [FS.sameFile, heq]
          refine ⟨file, hfile, ?_, ?_, rfl, ?_⟩
          · simp [FS.fileAt, FS.resolve]
          · simp only [FS.fileAt, FS.resolve, List.find?_cons]
            have h1 : decide (absPath fs.cwd dst = absPath fs.cwd src) = false := by
              simpa [FS.resolve] using (Ne.symm hne)
            simp only [h1]
            rw [find?_filter_drop]
            · rfl
            · intro e _ hk
              simp [FS.resolve, hk]
          · intro x hx1 hx2
            simp only [FS.fileAt, FS.resolve, List.find?_cons]
            have h1 : decide (absPath fs.cwd dst = absPath fs.cwd x) = false := by
              simpa [FS.resolve] using (Ne.symm hx2)
            simp only [h1]
            rw [find?_filter_keep]
            intro e _ hk
            have e1 : e.1 ≠ fs.resolve src := by
              rw [hk]
              exact hx1
            have e2 : e.1 ≠ fs.resolve dst := by
              rw [hk]
              exact hx2
            simp only [Bool.and_eq_true, decide_eq_true_eq]
            exact ⟨e1, e2⟩

theorem Renamed.frame (fs1 fs2 : FS) (src dst x : String) (h : Renamed fs1 fs2 src dst)
    (hx1 : fs1.resolve x ≠ fs1.resolve src) (hx2 : fs1.resolve x ≠ fs1.resolve dst) :
    fs2.fileAt x = fs1.fileAt x := by
  cases hs : fs1.sameFile src dst with
  | true => rw [h.1 hs]
  | false =>
    obtain ⟨_, _, _, _, _, hframe⟩ := h.2 hs
    exact hframe x hx1 hx2

theorem Renamed.cwd_eq (fs1 fs2 : FS) (src dst : String) (h : Renamed fs1 fs2 src dst) :
    fs2.cwd = fs1.cwd := by
  cases hs : fs1.sameFile src dst with
  | true => rw [h.1 hs]
  | false =>
    obtain ⟨_, _, _, _, hc, _⟩ := h.2 hs
    exact hc

theorem checkDuplicate_returns (io : Faults) (db : Index) (hash : String) (size : Int)
    (hq : io.queryFails = false) : ∃ e, checkDuplicate io db hash size = some e := by
  unfold checkDuplicate
  simp only [hq, Bool.false_eq_true, if_false]
  split
  · exact ⟨_, rfl⟩
  · exact ⟨_, rfl⟩

theorem processFile_unreadable (H : Content → String) (io : Faults) (w : World) (p : String)
    (hh : hashFile H io w.fs p = none) : processFile H io w p = ⟨w, false⟩ := by
  simp [processFile, hh]

theorem processFile_query_failed (H : Content → String) (io : Faults) (w : World)
    (p hash : String) (size : Int) (hh : hashFile H io w.fs p = some (hash, size))
    (hc : checkDuplicate io w.db hash size = none) : processFile H io w p = ⟨w, true⟩ := by
  simp [processFile, hh, hc]

theorem processFile_resolved (H : Content → String) (io : Faults) (w : World)
    (p hash e : String) (size : Int) (hh : hashFile H io w.fs p = some (hash, size))
    (hc : checkDuplicate io w.db hash size = some e) :
    processFile H io w p = ⟨resolveFile io w p hash size e, false⟩ := by
  simp [processFile, hh, hc]

theorem hashFile_some (H : Content → String) (io : Faults) (fs : FS) (p hash : String)
    (size : Int) (hh : hashFile H io fs p = some (hash, size)) :
    p ≠ "" ∧ io.readFails = false ∧
      ∃ file, fs.fileAt p = some file ∧ hash = H file.bytes ∧
        size = (file.bytes.length : Int) := by
  unfold hashFile at hh
  split at hh
  · exact absurd hh (by simp)
  · rename_i hcond
    push_neg at hcond
    split at hh
    · exact absurd hh (by simp)
    · rename_i b hb
      simp only [Option.some.injEq, Prod.mk.injEq] at hh
      exact ⟨hcond.2, by simpa using hcond.1, b, hb, hh.1.symm, hh.2.symm⟩

theorem filepath_examples :
    quarantinePath "b/a.txt" = "b/duplicate_to_be_deleted/a.txt" ∧
      quarantinePath "a.txt" = "duplicate_to_be_deleted/a.txt" ∧
      quarantinePath "/x/y/a.txt" = "/x/y/duplicate_to_be_deleted/a.txt" ∧
      Clean "a/../../b/./c//d/.." = "../b/c" ∧ Clean "/../a" = "/a" ∧
      Dir "/a" = "/" ∧ Dir "a" = "." ∧ Base "a/b/" = "b" ∧ Join ["", "a", "", "b"] = "a/b" ∧
      absPath "/w" "./a.txt" = "/w/a.txt" ∧ absPath "/w" "/w/b/../a.txt" = "/w/a.txt" := by
  decide

theorem bytesAt_mem (fs : FS) (p : String) (b : Content) (h : fs.bytesAt p = some b) :
    ∃ e ∈ fs.entries, e.2.bytes = b := by
  unfold FS.bytesAt FS.fileAt at h
  cases hf : fs.entries.find? (fun e => decide (e.1 = fs.resolve p)) with
  | none => simp [hf] at h
  | some e =>
    simp only [hf, Option.map_some', Option.some.injEq] at h
    exact ⟨e, List.mem_of_find?_eq_some hf, h⟩

/-! ## Failures of single calls -/

/-- C7. Per-file failures fail safe: when `hashFile` fails, or the file is a
duplicate and `os.MkdirAll` fails or `os.Rename` fails, `processFile` returns
without `log.Fatal` and leaves the whole state as it was: every file where it
was with the bytes it had, and the index. -/
theorem processFile_fails_safe (H : Content → String) (io : Faults) (w : World) (p : String)
    (hfail : hashFile H io w.fs p = none ∨
      ∃ hash size existing, hashFile H io w.fs p = some (hash, size) ∧
        checkDuplicate io w.db hash size = some existing ∧ existing ≠ "" ∧
        (osMkdirAll io w.fs (dupDirOf p) = false ∨
          osRename io w.fs p (quarantinePath p) = none)) :
    processFile H io w p = ⟨w, false⟩ := by
  rcases hfail with h | ⟨hash, size, existing, hh, hc, hne, hf⟩
  · simp [processFile, h]
  · simp only [processFile, hh, hc, resolveFile, hne, ne_eq, not_false_eq_true, if_true,
      handleDuplicate_def]
    rcases hf with hf | hf
    · simp [hf]
    · simp [hf]

/-- C7, on concrete trees: an unreadable `a.txt`; a duplicate `b/a.txt` whose
directory cannot be created, because the call is refused or because a regular
file has the directory's name; and one whose rename is refused. -/
theorem processFile_fails_safe_witness :
    processFile toyHash readFault ⟨fsOf scenarioTree, []⟩ "a.txt"
        = ⟨⟨fsOf scenarioTree, []⟩, false⟩ ∧
      processFile toyHash mkdirFault ⟨fsOf scenarioTree, [⟨"a.txt", 1, "X"⟩]⟩ "b/a.txt"
        = ⟨⟨fsOf scenarioTree, [⟨"a.txt", 1, "X"⟩]⟩, false⟩ ∧
      processFile toyHash noFaults ⟨fsOf blockedTree, [⟨"a.txt", 1, "X"⟩]⟩ "b/a.txt"
        = ⟨⟨fsOf blockedTree, [⟨"a.txt", 1, "X"⟩]⟩, false⟩ ∧
      processFile toyHash renameFault ⟨fsOf scenarioTree, [⟨"a.txt", 1, "X"⟩]⟩ "b/a.txt"
        = ⟨⟨fsOf scenarioTree, [⟨"a.txt", 1, "X"⟩]⟩, false⟩ :=
  ⟨processFile_fails_safe toyHash readFault ⟨fsOf scenarioTree, []⟩ "a.txt" (Or.inl (by decide)),
   processFile_fails_safe toyHash mkdirFault ⟨fsOf scenarioTree, [⟨"a.txt", 1, "X"⟩]⟩ "b/a.txt"
     (Or.inr ⟨"X", 1, "a.txt", by decide, by decide, by decide, Or.inl (by decide)⟩),
   processFile_fails_safe toyHash noFaults ⟨fsOf blockedTree, [⟨"a.txt", 1, "X"⟩]⟩ "b/a.txt"
     (Or.inr ⟨"X", 1, "a.txt", by decide, by decide, by decide, Or.inl (by decide)⟩),
   processFile_fails_safe toyHash renameFault ⟨fsOf scenarioTree, [⟨"a.txt", 1, "X"⟩]⟩ "b/a.txt"
     (Or.inr ⟨"X", 1, "a.txt", by decide, by decide, by decide, Or.inr (by decide)⟩)⟩

/-- C6, as stated, fails: `a.txt` holds `X` and the index has a row for
`a.txt` with another hash. `checkDuplicate` finds no row for `(X, 1)`, the
insert is rejected by the `UNIQUE` constraint on the path, and `processFile`
returns with the file still at `a.txt`, nothing at its quarantine destination
and the index as it was. -/
theorem processFile_rejected_insert_not_quarantined :
    hashFile toyHash noFaults (fsOf scenarioTree) "a.txt" = some ("X", 1) ∧
      checkDuplicate noFaults [⟨"a.txt", 1, "Y"⟩] "X" 1 = some "" ∧
      saveFile noFaults [⟨"a.txt", 1, "Y"⟩] ⟨"a.txt", 1, "X"⟩ = [⟨"a.txt", 1, "Y"⟩] ∧
      (processFile toyHash noFaults ⟨fsOf scenarioTree, [⟨"a.txt", 1, "Y"⟩]⟩ "a.txt").world.fs.bytesAt
          (quarantinePath "a.txt") = none ∧
      (processFile toyHash noFaults ⟨fsOf scenarioTree, [⟨"a.txt", 1, "Y"⟩]⟩ "a.txt").world.fs.bytesAt
          "a.txt" = some bytesX ∧
      (processFile toyHash noFaults ⟨fsOf scenarioTree, [⟨"a.txt", 1, "Y"⟩]⟩ "a.txt").world.db
          = [⟨"a.txt", 1, "Y"⟩] := by
  decide

/-- C6, amended: when `checkDuplicate` finds no row for the file's hash and
size and the insert in `saveFile` is rejected (refused by the database, or a
row with this path exists), `processFile` returns and leaves the filesystem
and the index as they were: the file is not moved. -/
theorem processFile_rejected_insert_unchanged (H : Content → String) (io : Faults) (w : World)
    (p hash : String) (size : Int)
    (hh : hashFile H io w.fs p = some (hash, size))
    (hc : checkDuplicate io w.db hash size = some "")
    (hrej : io.insertFails = true ∨ ∃ r ∈ w.db, r.Path = p) :
    processFile H io w p = ⟨w, false⟩ := by
  have hsave : saveFile io w.db ⟨p, size, hash⟩ = w.db := by
    unfold saveFile
    rw [if_pos]
    rcases hrej with h | ⟨r, hr, hrp⟩
    · exact Or.inl h
    · exact Or.inr (List.any_eq_true.mpr ⟨r, hr, by simpa using hrp⟩)
  simp [processFile, hh, hc, resolveFile, hsave]

/-- C6 amended, on the tree of the counterexample. -/
theorem processFile_rejected_insert_unchanged_witness :
    processFile toyHash noFaults ⟨fsOf scenarioTree, [⟨"a.txt", 1, "Y"⟩]⟩ "a.txt"
      = ⟨⟨fsOf scenarioTree, [⟨"a.txt", 1, "Y"⟩]⟩, false⟩ :=
  processFile_rejected_insert_unchanged toyHash noFaults ⟨fsOf scenarioTree, [⟨"a.txt", 1, "Y"⟩]⟩
    "a.txt" "X" 1 (by decide) (by decide) (Or.inr ⟨⟨"a.txt", 1, "Y"⟩, by decide, by decide⟩)

/-! ## `handleDuplicate` and a destination that is taken -/

theorem handleDuplicate_cases (io : Faults) (fs : FS) (d o : String) :
    handleDuplicate io fs d o = fs ∨ Renamed fs (handleDuplicate io fs d o) d (quarantinePath d) := by
  rw [handleDuplicate_def]
  by_cases hm : osMkdirAll io fs (dupDirOf d) = false
  · left
    rw [if_pos hm]
  · rw [if_neg hm]
    cases hr : osRename io fs d (quarantinePath d) with
    | none => exact Or.inl rfl
    | some fs2 => exact Or.inr (osRename_renamed io fs fs2 d (quarantinePath d) hr)

/-- C4 at its failing input: `d/x.txt` holds `X` and its quarantine destination
`d/duplicate_to_be_deleted/x.txt` already holds the different file `Z`. After
`handleDuplicate` the destination holds `X`, `d/x.txt` holds nothing, and no
path holds `Z` any more: the existing file was replaced. -/
theorem handleDuplicate_replaces_existing_file :
    (fsOf collisionTree).bytesAt "d/x.txt" = some bytesX ∧
      quarantinePath "d/x.txt" = "d/duplicate_to_be_deleted/x.txt" ∧
      (fsOf collisionTree).bytesAt "d/duplicate_to_be_deleted/x.txt" = some bytesZ ∧
      (handleDuplicate noFaults (fsOf collisionTree) "d/x.txt" "a.txt").bytesAt
          "d/duplicate_to_be_deleted/x.txt" = some bytesX ∧
      (handleDuplicate noFaults (fsOf collisionTree) "d/x.txt" "a.txt").bytesAt "d/x.txt"
          = none ∧
      ∀ p, (handleDuplicate noFaults (fsOf collisionTree) "d/x.txt" "a.txt").bytesAt p
          ≠ some bytesZ := by
  refine ⟨by decide, by decide, by decide, by decide, by decide, ?_⟩
  intro p hp
  obtain ⟨e, he, hb⟩ := bytesAt_mem _ p bytesZ hp
  have hall : ∀ e ∈ (handleDuplicate noFaults (fsOf collisionTree) "d/x.txt" "a.txt").entries,
      e.2.bytes ≠ bytesZ := by decide
  exact hall e he hb

/-! ## One call of `processFile` -/

theorem saveFile_cases (io : Faults) (db : Index) (info : FileInfo) :
    (saveFile io db info = db) ∨
      (saveFile io db info = db ++ [info] ∧ io.insertFails = false ∧
        ∀ r ∈ db, r.Path ≠ info.Path) := by
  unfold saveFile
  by_cases h : io.insertFails = true ∨ (db.any fun r => decide (r.Path = info.Path)) = true
  · left
    rw [if_pos h]
  · right
    rw [if_neg h]
    push_neg at h
    refine ⟨rfl, by simpa using h.1, ?_⟩
    intro r hr hrp
    exact h.2 (List.any_eq_true.mpr ⟨r, hr, by simpa using hrp⟩)

theorem checkDuplicate_empty (io : Faults) (db : Index) (hash : String) (size : Int)
    (hne : ∀ r ∈ db, r.Path ≠ "") (hc : checkDuplicate io db hash size = some "") :
    ∀ r ∈ db, r.key ≠ (hash, size) := by
  unfold checkDuplicate at hc
  split at hc
  · exact absurd hc (by simp)
  · split at hc
    · rename_i hfind
      intro r hr hk
      have := List.find?_eq_none.mp hfind r hr
      simp only [FileInfo.key, Prod.mk.injEq] at hk
      simp [hk.1, hk.2] at this
    · rename_i r hfind
      have hmem := List.mem_of_find?_eq_some hfind
      exact absurd (Option.some.inj hc) (hne r hmem)

theorem checkDuplicate_found (io : Faults) (db : Index) (hash e : String) (size : Int)
    (hc : checkDuplicate io db hash size = some e) (he : e ≠ "") :
    ∃ r ∈ db, r.key = (hash, size) ∧ r.Path = e := by
  unfold checkDuplicate at hc
  split at hc
  · exact absurd hc (by simp)
  · split at hc
    · exact absurd (Option.some.inj hc).symm he
    · rename_i r hfind
      refine ⟨r, List.mem_of_find?_eq_some hfind, ?_, Option.some.inj hc⟩
      have := List.find?_some hfind
      simp only [decide_eq_true_eq] at this
      simp [FileInfo.key, this.1, this.2]

theorem sameFile_of_free (fs : FS) (src dst : String) (file : File)
    (hs : fs.fileAt src = some file) (hd : fs.fileAt dst = none) :
    fs.sameFile src dst = false := by
  have hne : fs.resolve src ≠ fs.resolve dst := by
    intro heq
    unfold FS.fileAt at hs hd
    rw [heq] at hs
    rw [hs] at hd
    exact absurd hd (by simp)
  simp [FS.sameFile, hne, hs, hd]

/-- C8, as stated, fails, in two ways. (1) With the index row `("", 1, X)` and
`a.txt` holding `X`, `checkDuplicate` finds a row with the file's hash and
size, yet returns its path, the empty string, and the index gains the row of
`a.txt`. (2) With `a.txt` recorded and `d/x.txt` a duplicate of it whose
quarantine destination holds another file `Z`, the call also destroys that
file: afterwards no entry holds `Z`, a change that is not the move of
`d/x.txt`. -/
theorem processFile_changes_beyond_the_two_outcomes :
    ((∃ r ∈ ([⟨"", 1, "X"⟩] : Index), r.key = ("X", 1)) ∧
        hashFile toyHash noFaults (fsOf scenarioTree) "a.txt" = some ("X", 1) ∧
        (processFile toyHash noFaults ⟨fsOf scenarioTree, [⟨"", 1, "X"⟩]⟩ "a.txt").world.db
          = [⟨"", 1, "X"⟩, ⟨"a.txt", 1, "X"⟩]) ∧
      ((∃ r ∈ ([⟨"a.txt", 1, "X"⟩] : Index), r.key = ("X", 1)) ∧
        hashFile toyHash noFaults (fsOf collisionTree) "d/x.txt" = some ("X", 1) ∧
        (fsOf collisionTree).bytesAt "d/duplicate_to_be_deleted/x.txt" = some bytesZ ∧
        ∀ e ∈ (processFile toyHash noFaults ⟨fsOf collisionTree, [⟨"a.txt", 1, "X"⟩]⟩
          "d/x.txt").world.fs.entries, e.2.bytes ≠ bytesZ) := by
  decide

/-- C8, amended. For an index in which no row has the empty path and a
readable path (one `hashFile` succeeds on): when no row has the file's hash
and size, the filesystem is unchanged and the index is unchanged or has gained
exactly the row `(path, size, hash)` at its end; when a row has them, the
index is unchanged and, if no file is at the quarantine destination, the
filesystem is unchanged or differs by the move of that file to its quarantine
path only. No call both changes the index and the filesystem. -/
theorem processFile_original_or_duplicate (H : Content → String) (io : Faults) (w : World)
    (p hash : String) (size : Int)
    (hne : ∀ r ∈ w.db, r.Path ≠ "")
    (hread : hashFile H io w.fs p = some (hash, size)) :
    ((∀ r ∈ w.db, r.key ≠ (hash, size)) →
        (processFile H io w p).world.fs = w.fs ∧
        ((processFile H io w p).world.db = w.db ∨
          (processFile H io w p).world.db = w.db ++ [⟨p, size, hash⟩])) ∧
      ((∃ r ∈ w.db, r.key = (hash, size)) →
        (processFile H io w p).world.db = w.db ∧
        (w.fs.fileAt (quarantinePath p) = none →
          (processFile H io w p).world.fs = w.fs ∨
          MovedTo w.fs (processFile H io w p).world.fs p (quarantinePath p))) ∧
      ¬ ((processFile H io w p).world.db ≠ w.db ∧ (processFile H io w p).world.fs ≠ w.fs) := by
  cases hc : checkDuplicate io w.db hash size with
  | none =>
    rw [processFile_query_failed H io w p hash size hread hc]
    exact ⟨fun _ => ⟨rfl, Or.inl rfl⟩, fun _ => ⟨rfl, fun _ => Or.inl rfl⟩, fun h => h.1 rfl⟩
  | some e =>
    rw [processFile_resolved H io w p hash e size hread hc]
    by_cases he : e = ""
    · subst he
      have hnone := checkDuplicate_empty io w.db hash size hne hc
      have hres : resolveFile io w p hash size "" =
          { w with db := saveFile io w.db ⟨p, size, hash⟩ } := by
        simp [resolveFile]
      rw [hres]
      refine ⟨fun _ => ⟨rfl, ?_⟩, ?_, fun h => h.2 rfl⟩
      · rcases saveFile_cases io w.db ⟨p, size, hash⟩ with h | h
        · exact Or.inl h
        · exact Or.inr h.1
      · rintro ⟨r, hr, hk⟩
        exact absurd hk (hnone r hr)
    · obtain ⟨r0, hr0, hk0, -⟩ := checkDuplicate_found io w.db hash e size hc he
      have hres : resolveFile io w p hash size e =
          { w with fs := handleDuplicate io w.fs p e } := by
        simp [resolveFile, he]
      rw [hres]
      refine ⟨fun hno => absurd hk0 (hno r0 hr0), fun _ => ⟨rfl, ?_⟩, fun h => h.1 rfl⟩
      intro hfree
      obtain ⟨-, -, file, hfile, -, -⟩ := hashFile_some H io w.fs p hash size hread
      rcases handleDuplicate_cases io w.fs p e with h | h
      · exact Or.inl h
      · exact Or.inr (h.2 (sameFile_of_free w.fs p (quarantinePath p) file hfile hfree))

/-- C8 amended, on the scenario tree: with `a.txt` recorded, `c.txt` is
recorded as an original and `b/a.txt` is moved as a duplicate. -/
theorem processFile_original_or_duplicate_witness :
    ((processFile toyHash noFaults ⟨fsOf scenarioTree, [⟨"a.txt", 1, "X"⟩]⟩ "c.txt").world.fs
          = fsOf scenarioTree ∧
        ((processFile toyHash noFaults ⟨fsOf scenarioTree, [⟨"a.txt", 1, "X"⟩]⟩ "c.txt").world.db
            = [⟨"a.txt", 1, "X"⟩] ∨
          (processFile toyHash noFaults ⟨fsOf scenarioTree, [⟨"a.txt", 1, "X"⟩]⟩ "c.txt").world.db
            = [⟨"a.txt", 1, "X"⟩] ++ [⟨"c.txt", 1, "Y"⟩])) ∧
      ((processFile toyHash noFaults ⟨fsOf scenarioTree, [⟨"a.txt", 1, "X"⟩]⟩ "b/a.txt").world.db
          = [⟨"a.txt", 1, "X"⟩] ∧
        ((fsOf scenarioTree).fileAt (quarantinePath "b/a.txt") = none →
          (processFile toyHash noFaults ⟨fsOf scenarioTree, [⟨"a.txt", 1, "X"⟩]⟩ "b/a.txt").world.fs
            = fsOf scenarioTree ∨
          MovedTo (fsOf scenarioTree)
            (processFile toyHash noFaults ⟨fsOf scenarioTree, [⟨"a.txt", 1, "X"⟩]⟩ "b/a.txt").world.fs
            "b/a.txt" (quarantinePath "b/a.txt"))) :=
  ⟨(processFile_original_or_duplicate toyHash noFaults ⟨fsOf scenarioTree, [⟨"a.txt", 1, "X"⟩]⟩
      "c.txt" "Y" 1 (by decide) (by decide)).1 (by decide),
   (processFile_original_or_duplicate toyHash noFaults ⟨fsOf scenarioTree, [⟨"a.txt", 1, "X"⟩]⟩
      "b/a.txt" "X" 1 (by decide) (by decide)).2.1 ⟨⟨"a.txt", 1, "X"⟩, by decide, by decide⟩⟩

/-- C10, as stated, fails: an index whose only row has the empty path and the
key `(X, 1)` has no two rows with one path and no two with one key;
`checkDuplicate` returns that row's path, the empty string, which
`processFile` reads as "no duplicate", and the row for `a.txt` is inserted:
two rows now share the key `(X, 1)`. -/
theorem processFile_empty_path_row_breaks_key_invariant :
    (([⟨"", 1, "X"⟩] : Index).map FileInfo.Path).Nodup ∧
      (([⟨"", 1, "X"⟩] : Index).map FileInfo.key).Nodup ∧
      (processFile toyHash noFaults ⟨fsOf scenarioTree, [⟨"", 1, "X"⟩]⟩ "a.txt").world.db
        = [⟨"", 1, "X"⟩, ⟨"a.txt", 1, "X"⟩] ∧
      ¬ ((processFile toyHash noFaults ⟨fsOf scenarioTree, [⟨"", 1, "X"⟩]⟩ "a.txt").world.db.map
          FileInfo.key).Nodup := by
  decide

/-- C10, amended: for every index in which no two rows share a path, no two
rows share a `(hash, size)` pair and no row has the empty path, and for every
path, filesystem and refusal of calls (a rejected insert included), the index
after one `processFile` call has these three properties again. -/
theorem processFile_keeps_index_invariant (H : Content → String) (io : Faults) (w : World)
    (p : String)
    (hpath : (w.db.map FileInfo.Path).Nodup)
    (hkey : (w.db.map FileInfo.key).Nodup)
    (hne : ∀ r ∈ w.db, r.Path ≠ "") :
    ((processFile H io w p).world.db.map FileInfo.Path).Nodup ∧
      ((processFile H io w p).world.db.map FileInfo.key).Nodup ∧
      ∀ r ∈ (processFile H io w p).world.db, r.Path ≠ "" := by
  cases hh : hashFile H io w.fs p with
  | none =>
    rw [processFile_unreadable H io w p hh]
    exact ⟨hpath, hkey, hne⟩
  | some hs =>
    obtain ⟨hash, size⟩ := hs
    have hp : p ≠ "" := (hashFile_some H io w.fs p hash size hh).1
    cases hc : checkDuplicate io w.db hash size with
    | none =>
      rw [processFile_query_failed H io w p hash size hh hc]
      exact ⟨hpath, hkey, hne⟩
    | some e =>
      rw [processFile_resolved H io w p hash e size hh hc]
      by_cases he : e = ""
      · subst he
        have hres : (resolveFile io w p hash size "").db = saveFile io w.db ⟨p, size, hash⟩ := by
          simp [resolveFile]
        simp only [hres]
        rcases saveFile_cases io w.db ⟨p, size, hash⟩ with h | ⟨h, -, hfresh⟩
        · rw [h]
          exact ⟨hpath, hkey, hne⟩
        · rw [h]
          have hnokey := checkDuplicate_empty io w.db hash size hne hc
          refine ⟨?_, ?_, ?_⟩
          · rw [List.map_append, List.nodup_append]
            refine ⟨hpath, by simp, ?_⟩
            intro a ha hb
            simp only [List.map_cons, List.map_nil, List.mem_singleton] at hb
            obtain ⟨r, hr, hra⟩ := List.mem_map.mp ha
            exact hfresh r hr (hra.trans hb)
          · rw [List.map_append, List.nodup_append]
            refine ⟨hkey, by simp, ?_⟩
            intro a ha hb
            simp only [List.map_cons, List.map_nil, List.mem_singleton] at hb
            obtain ⟨r, hr, hra⟩ := List.mem_map.mp ha
            exact hnokey r hr (hra.trans hb)
          · intro r hr
            rcases List.mem_append.mp hr with h1 | h1
            · exact hne r h1
            · simp only [List.mem_singleton] at h1
              subst h1
              exact hp
      · have hres : (resolveFile io w p hash size e).db = w.db := by
          simp [resolveFile, he]
        simp only [hres]
        exact ⟨hpath, hkey, hne⟩

/-- C10 amended, on a reused index: `a.txt` is recorded, `c.txt` is new. -/
theorem processFile_keeps_index_invariant_witness :
    ((processFile toyHash noFaults ⟨fsOf scenarioTree, [⟨"a.txt", 1, "X"⟩]⟩ "c.txt").world.db.map
        FileInfo.Path).Nodup ∧
      ((processFile toyHash noFaults ⟨fsOf scenarioTree, [⟨"a.txt", 1, "X"⟩]⟩ "c.txt").world.db.map
        FileInfo.key).Nodup ∧
      ∀ r ∈ (processFile toyHash noFaults ⟨fsOf scenarioTree, [⟨"a.txt", 1, "X"⟩]⟩ "c.txt").world.db,
        r.Path ≠ "" :=
  processFile_keeps_index_invariant toyHash noFaults ⟨fsOf scenarioTree, [⟨"a.txt", 1, "X"⟩]⟩
    "c.txt" (by decide) (by decide) (by decide)

/-! ## The program on concrete trees -/

/-- C3 at its failing input: on a tree where `a.txt` holds `X` and the index is
empty, the first `processFile "a.txt"` records `a.txt` and leaves it in place;
the second finds that very row, takes `a.txt` for a duplicate of itself and
moves it to `duplicate_to_be_deleted/a.txt`. -/
theorem processFile_twice_quarantines_original :
    (processFile toyHash noFaults ⟨fsOf scenarioTree, []⟩ "a.txt").world.db
        = [⟨"a.txt", 1, "X"⟩] ∧
      (processFile toyHash noFaults ⟨fsOf scenarioTree, []⟩ "a.txt").world.fs.bytesAt "a.txt"
        = some bytesX ∧
      checkDuplicate noFaults
        (processFile toyHash noFaults ⟨fsOf scenarioTree, []⟩ "a.txt").world.db "X" 1
        = some "a.txt" ∧
      (processFile toyHash noFaults
        (processFile toyHash noFaults ⟨fsOf scenarioTree, []⟩ "a.txt").world "a.txt").world.fs.bytesAt
          "a.txt" = none ∧
      (processFile toyHash noFaults
        (processFile toyHash noFaults ⟨fsOf scenarioTree, []⟩ "a.txt").world "a.txt").world.fs.bytesAt
          "duplicate_to_be_deleted/a.txt" = some bytesX ∧
      (processFile toyHash noFaults
        (processFile toyHash noFaults ⟨fsOf scenarioTree, []⟩ "a.txt").world "a.txt").world.db
        = [⟨"a.txt", 1, "X"⟩] := by
  decide

/-- C2 at its failing input: the tree `a.txt = X`,
`d/duplicate_to_be_deleted/x.txt = Z`, `d/x.txt = X`, walked in lexical order
from an empty index. The run ends without `log.Fatal`; the file that held `Z`
is recorded as an original, and then `d/x.txt` is renamed onto it: after the
run its path holds `X`, its own quarantine path holds nothing, and no path at
all holds `Z`. -/
theorem runSeq_overwrites_recorded_file :
    (fsOf collisionTree).bytesAt "d/duplicate_to_be_deleted/x.txt" = some bytesZ ∧
      (runSeq toyHash (fun _ => noFaults) ⟨fsOf collisionTree, []⟩
        ["a.txt", "d/duplicate_to_be_deleted/x.txt", "d/x.txt"]).fatal = false ∧
      (runSeq toyHash (fun _ => noFaults) ⟨fsOf collisionTree, []⟩
        ["a.txt", "d/duplicate_to_be_deleted/x.txt", "d/x.txt"]).world.db
        = [⟨"a.txt", 1, "X"⟩, ⟨"d/duplicate_to_be_deleted/x.txt", 1, "Z"⟩] ∧
      (runSeq toyHash (fun _ => noFaults) ⟨fsOf collisionTree, []⟩
        ["a.txt", "d/duplicate_to_be_deleted/x.txt", "d/x.txt"]).world.fs.bytesAt
          "d/duplicate_to_be_deleted/x.txt" = some bytesX ∧
      (runSeq toyHash (fun _ => noFaults) ⟨fsOf collisionTree, []⟩
        ["a.txt", "d/duplicate_to_be_deleted/x.txt", "d/x.txt"]).world.fs.bytesAt
          (quarantinePath "d/duplicate_to_be_deleted/x.txt") = none ∧
      ∀ p, (runSeq toyHash (fun _ => noFaults) ⟨fsOf collisionTree, []⟩
        ["a.txt", "d/duplicate_to_be_deleted/x.txt", "d/x.txt"]).world.fs.bytesAt p
          ≠ some bytesZ := by
  refine ⟨by decide, by decide, by decide, by decide, by decide, ?_⟩
  intro p hp
  obtain ⟨e, he, hb⟩ := bytesAt_mem _ p bytesZ hp
  have hall : ∀ e ∈ (runSeq toyHash (fun _ => noFaults) ⟨fsOf collisionTree, []⟩
      ["a.txt", "d/duplicate_to_be_deleted/x.txt", "d/x.txt"]).world.fs.entries,
      e.2.bytes ≠ bytesZ := by decide
  exact hall e he hb

/-- C1 at its failing input: the 10 workers of `main`, the files `a.txt` and
`b.txt` with the same bytes, an empty index. Workers 0 and 1 both run
`checkDuplicate` before either runs `saveFile`; the run ends (channel closed,
every worker gone) with two rows for the one key `(X, 1)`, with both files
where they were and nothing at their quarantine paths. -/
theorem racing_workers_record_both_copies :
    (exec toyHash (initSys numWorkers ["a.txt", "b.txt"] ⟨fsOf twinTree, []⟩)
        racingSchedule).map (fun s => (s.finished, s.world.db))
      = some (true, [⟨"a.txt", 1, "X"⟩, ⟨"b.txt", 1, "X"⟩]) ∧
    (exec toyHash (initSys numWorkers ["a.txt", "b.txt"] ⟨fsOf twinTree, []⟩)
        racingSchedule).map (fun s => (s.world.fs.bytesAt "a.txt", s.world.fs.bytesAt "b.txt"))
      = some (some bytesX, some bytesX) ∧
    (exec toyHash (initSys numWorkers ["a.txt", "b.txt"] ⟨fsOf twinTree, []⟩)
        racingSchedule).map
        (fun s => (s.world.fs.bytesAt (quarantinePath "a.txt"),
          s.world.fs.bytesAt (quarantinePath "b.txt")))
      = some (none, none) := by
  decide

/-! ## The goroutines: `wg.Wait()` and the workers -/

theorem countP_set_aux {α : Type} (p : α → Bool) :
    ∀ (l : List α) (i : Nat) (a b : α), l[i]? = some a →
      (l.set i b).countP p + (if p a then 1 else 0) = l.countP p + (if p b then 1 else 0) := by
  intro l
  induction l with
  | nil => intro i a b h; simp at h
  | cons x xs ih =>
    intro i a b h
    cases i with
    | zero =>
      simp only [List.getElem?_cons_zero, Option.some.injEq] at h
      subst h
      simp only [List.set_cons_zero, List.countP_cons]
      omega
    | succ i =>
      simp only [List.getElem?_cons_succ] at h
      have := ih i a b h
      simp only [List.set_cons_succ, List.countP_cons]
      omega

theorem filterMap_set_aux {α β : Type} (f : α → Option β) :
    ∀ (l : List α) (i : Nat) (a b : α), l[i]? = some a →
      ((l.set i b).filterMap f ++ (f a).toList).Perm (l.filterMap f ++ (f b).toList) := by
  intro l
  induction l with
  | nil => intro i a b h; simp at h
  | cons x xs ih =>
    intro i a b h
    cases i with
    | zero =>
      simp only [List.getElem?_cons_zero, Option.some.injEq] at h
      subst h
      simp only [List.set_cons_zero, List.filterMap_cons]
      cases hx : f x <;> cases hb : f b <;> simp [Option.toList]
      · rename_i v
        exact (List.perm_append_singleton v _).symm
      · rename_i u v
        have h1 : (u :: (List.filterMap f xs ++ [v])).Perm (u :: v :: List.filterMap f xs) :=
          (List.perm_append_singleton v _).cons u
        have h2 : (v :: (List.filterMap f xs ++ [u])).Perm (v :: u :: List.filterMap f xs) :=
          (List.perm_append_singleton u _).cons v
        exact (h1.trans ((List.Perm.swap v u _).trans h2.symm)).symm
    | succ i =>
      simp only [List.getElem?_cons_succ] at h
      have := ih i a b h
      simp only [List.set_cons_succ, List.filterMap_cons]
      cases hx : f x
      · simpa using this
      · simpa using this

theorem initSys_inv (n : Nat) (paths : List String) (w : World) : SysInv (initSys n paths w) := by
  refine ⟨?_, ?_, ?_⟩
  · have h : (List.replicate n WorkerPc.recv).countP WorkerPc.busy = 0 := by
      rw [List.countP_eq_zero]
      intro a ha
      rw [List.eq_of_mem_replicate ha]
      decide
    cases paths <;> simp [initSys, h, MainPc.pending]
  · intro h
    cases paths <;> simp [initSys, MainPc.pastWait] at h
  · have h : (List.replicate n WorkerPc.recv).filterMap WorkerPc.inProcess = [] := by
      rw [List.filterMap_eq_nil_iff]
      intro a ha
      rw [List.eq_of_mem_replicate ha]
      rfl
    simp [initSys, h]

theorem worker_update_inv (s : Sys) (i : Nat) (a b : WorkerPc) (hi : s.workers[i]? = some a) :
    ((s.workers.set i b).countP WorkerPc.busy : Int) + (if a.busy then 1 else 0)
        = (s.workers.countP WorkerPc.busy : Int) + (if b.busy then 1 else 0) ∧
      ((s.workers.set i b).filterMap WorkerPc.inProcess ++ a.inProcess.toList).Perm
        (s.workers.filterMap WorkerPc.inProcess ++ b.inProcess.toList) := by
  refine ⟨?_, filterMap_set_aux WorkerPc.inProcess s.workers i a b hi⟩
  have h := countP_set_aux WorkerPc.busy s.workers i a b hi
  split_ifs at h ⊢ <;> omega

theorem step_inv (H : Content → String) (s t : Sys) (a : Action) (hs : SysInv s)
    (h : step H s a = some t) : SysInv t := by
  obtain ⟨hwg, hpast, hperm⟩ := hs
  cases a with
  | add =>
    simp only [step] at h
    split at h
    · rename_i p rest hm
      cases h
      refine ⟨?_, ?_, hperm⟩
      · simp only [hm, MainPc.pending] at hwg ⊢
        omega
      · intro hp
        simp [MainPc.pastWait] at hp
    · exact absurd h (by simp)
  | send i =>
    simp only [step] at h
    split at h
    · rename_i p rest hm hi
      cases h
      obtain ⟨hc, hf⟩ := worker_update_inv s i .recv (.got p) hi
      refine ⟨?_, ?_, ?_⟩
      · simp only [hm, MainPc.pending, WorkerPc.busy, WorkerPc.busyWith] at hwg hc ⊢
        simp at hc
        push_cast at hwg ⊢
        omega
      · intro hp
        simp [MainPc.pastWait] at hp
      · simp only [WorkerPc.inProcess, Option.toList, List.append_nil] at hf
        have h1 : (s.sent ++ [p]).Perm
            ((s.completed ++ s.workers.filterMap WorkerPc.inProcess) ++ [p]) :=
          List.Perm.append_right [p] hperm
        refine h1.trans ?_
        rw [List.append_assoc]
        exact List.Perm.append_left _ hf.symm
    · exact absurd h (by simp)
  | check i io =>
    simp only [step] at h
    split at h
    · rename_i p hi
      split at h
      · cases h
        obtain ⟨hc, hf⟩ := worker_update_inv s i (.got p) (.processed p) hi
        refine ⟨?_, hpast, ?_⟩
        · simp only [WorkerPc.busy, WorkerPc.busyWith] at hc
          simp at hc
          simp only [hc]
          exact hwg
        · simp only [WorkerPc.inProcess, Option.toList, List.append_nil] at hf
          refine hperm.trans ?_
          rw [List.append_assoc]
          refine List.Perm.append_left _ (hf.symm.trans ?_)
          exact (List.perm_append_singleton p _).trans (List.perm_append_singleton p _).symm |>.trans
            (List.perm_append_comm)
      · split at h
        · exact absurd h (by simp)
        · rename_i hash size hh _ e hc0
          cases h
          obtain ⟨hc, hf⟩ := worker_update_inv s i (.got p) (.checked p hash size e) hi
          refine ⟨?_, hpast, ?_⟩
          · simp only [WorkerPc.busy, WorkerPc.busyWith] at hc
            simp at hc
            simp only [hc]
            exact hwg
          · simp only [WorkerPc.inProcess, Option.toList] at hf
            exact hperm.trans (List.Perm.append_left _ ((List.perm_append_right_iff [p]).mp hf).symm)
    · exact absurd h (by simp)
  | act i io =>
    simp only [step] at h
    split at h
    · rename_i p hash size e hi
      cases h
      obtain ⟨hc, hf⟩ := worker_update_inv s i (.checked p hash size e) (.processed p) hi
      refine ⟨?_, hpast, ?_⟩
      · simp only [WorkerPc.busy, WorkerPc.busyWith] at hc
        simp at hc
        simp only [hc]
        exact hwg
      · simp only [WorkerPc.inProcess, Option.toList, List.append_nil] at hf
        refine hperm.trans ?_
        rw [List.append_assoc]
        refine List.Perm.append_left _ (hf.symm.trans ?_)
        exact List.perm_append_comm
    · exact absurd h (by simp)
  | done i =>
    simp only [step] at h
    split at h
    · rename_i p hi
      cases h
      obtain ⟨hc, hf⟩ := worker_update_inv s i (.processed p) .recv hi
      simp only [WorkerPc.busy, WorkerPc.busyWith] at hc
      simp at hc
      refine ⟨?_, ?_, ?_⟩
      · show s.wg - 1 = ((s.workers.set i WorkerPc.recv).countP WorkerPc.busy : Int)
            + (s.main.pending : Int)
        omega
      · intro hp
        have h0 := hpast hp
        show s.wg - 1 = 0
        have : (0 : Int) ≤ (s.main.pending : Int) := Int.ofNat_nonneg _
        have : (0 : Int) ≤ ((s.workers.set i WorkerPc.recv).countP WorkerPc.busy : Int) :=
          Int.ofNat_nonneg _
        omega
      · simp only [WorkerPc.inProcess, Option.toList, List.append_nil] at hf
        exact hperm.trans (List.Perm.append_left _ hf.symm)
    · exact absurd h (by simp)
  | wait =>
    simp only [step] at h
    split at h
    · rename_i hm
      split at h
      · rename_i h0
        cases h
        refine ⟨?_, fun _ => h0, hperm⟩
        simp only [hm, MainPc.pending] at hwg ⊢
        exact hwg
      · exact absurd h (by simp)
    · exact absurd h (by simp)
  | close =>
    simp only [step] at h
    split at h
    · rename_i hm
      cases h
      have h0 := hpast (by simp [hm, MainPc.pastWait])
      refine ⟨?_, fun _ => h0, hperm⟩
      simp only [hm, MainPc.pending] at hwg ⊢
      exact hwg
    · exact absurd h (by simp)
  | exit i =>
    simp only [step] at h
    split at h
    · rename_i hm hi
      cases h
      obtain ⟨hc, hf⟩ := worker_update_inv s i .recv .exited hi
      simp only [WorkerPc.busy, WorkerPc.busyWith] at hc
      simp at hc
      refine ⟨?_, hpast, ?_⟩
      · simp only [hc]
        exact hwg
      · simp only [WorkerPc.inProcess, Option.toList, List.append_nil] at hf
        exact hperm.trans (List.Perm.append_left _ hf.symm)
    · exact absurd h (by simp)

theorem exec_inv (H : Content → String) (acts : List Action) :
    ∀ (s t : Sys), SysInv s → exec H s acts = some t → SysInv t := by
  induction acts with
  | nil =>
    intro s t hs h
    simp only [exec, Option.some.injEq] at h
    exact h ▸ hs
  | cons a rest ih =>
    intro s t hs h
    simp only [exec] at h
    split at h
    · exact absurd h (by simp)
    · rename_i u hu
      exact ih u t (step_inv H s u a hs hu) h

theorem getElem?_set_self_of_some {α : Type} (l : List α) (i : Nat) (a b : α)
    (h : l[i]? = some a) : (l.set i b)[i]? = some b := by
  have hlt : i < l.length := by
    by_contra hge
    rw [List.getElem?_eq_none (by omega)] at h
    exact absurd h (by simp)
  simp [List.getElem?_set, hlt]

theorem worker_runs_processFile (H : Content → String) (s : Sys) (i : Nat) (p : String)
    (io : Faults) (hi : s.workers[i]? = some (.got p)) :
    (hashFile H io s.world.fs p = none →
        ∃ t, exec H s [.check i io] = some t ∧ t.world = (processFile H io s.world p).world) ∧
      (∀ hash size e, hashFile H io s.world.fs p = some (hash, size) →
        checkDuplicate io s.world.db hash size = some e →
        ∃ t, exec H s [.check i io, .act i io] = some t ∧
          t.world = (processFile H io s.world p).world) := by
  constructor
  · intro hh
    refine ⟨{ s with workers := s.workers.set i (.processed p),
                     completed := s.completed ++ [p] }, ?_, ?_⟩
    · simp only [exec, step, hi, hh]
    · rw [processFile_unreadable H io s.world p hh]
  · intro hash size e hh hc
    refine ⟨{ s with world := resolveFile io s.world p hash size e,
                     workers := (s.workers.set i (.checked p hash size e)).set i (.processed p),
                     completed := s.completed ++ [p] }, ?_, ?_⟩
    · simp only [exec, step, hi, hh, hc, getElem?_set_self_of_some s.workers i _ _ hi]
    · rw [processFile_resolved H io s.world p hash e size hh hc]

/-- C9. The run never reports done with work outstanding. In every state the
program reaches, from any number of workers (10 in `main`), any walk and any
schedule: once main is past `wg.Wait()` no worker holds a path, and the paths
sent on the channel are exactly the paths for which `processFile` has
returned. And a worker whose `processFile` fails is not stopped: when
`hashFile` fails it goes on to `wg.Done()` and is back at the channel, and
when `hashFile` and `checkDuplicate` return it is back at the channel after
`handleDuplicate` or `saveFile`, whatever these calls were refused. -/
theorem main_waits_for_dispatched_work (H : Content → String) (n : Nat) (paths : List String)
    (w : World) :
    (∀ acts s, exec H (initSys n paths w) acts = some s → s.main.pastWait = true →
        (∀ wk ∈ s.workers, wk.busyWith = none) ∧ s.sent.Perm s.completed) ∧
      (∀ (s : Sys) (i : Nat) (p : String) (io : Faults), s.workers[i]? = some (.got p) →
        (hashFile H io s.world.fs p = none →
          ∃ t, exec H s [.check i io, .done i] = some t ∧ t.workers[i]? = some .recv ∧
            t.main = s.main ∧ t.world = s.world ∧ t.completed = s.completed ++ [p]) ∧
        (∀ hash size e, hashFile H io s.world.fs p = some (hash, size) →
          checkDuplicate io s.world.db hash size = some e →
          ∃ t, exec H s [.check i io, .act i io, .done i] = some t ∧
            t.workers[i]? = some .recv ∧ t.main = s.main ∧
            t.completed = s.completed ++ [p])) := by
  constructor
  · intro acts s hexec hp
    obtain ⟨hwg, hpast, hperm⟩ := exec_inv H acts _ s (initSys_inv n paths w) hexec
    have h0 := hpast hp
    have hc : s.workers.countP WorkerPc.busy = 0 := by
      rw [h0] at hwg
      omega
    rw [List.countP_eq_zero] at hc
    have hidle : ∀ wk ∈ s.workers, wk.busyWith = none := by
      intro wk hwk
      have := hc wk hwk
      cases hb : wk.busyWith with
      | none => rfl
      | some q => simp [WorkerPc.busy, hb] at this
    refine ⟨hidle, ?_⟩
    have hnil : s.workers.filterMap WorkerPc.inProcess = [] := by
      rw [List.filterMap_eq_nil_iff]
      intro wk hwk
      have := hidle wk hwk
      cases wk <;> simp [WorkerPc.busyWith] at this <;> rfl
    rw [hnil, List.append_nil] at hperm
    exact hperm
  · intro s i p io hi
    constructor
    · intro hh
      refine ⟨{ s with wg := s.wg - 1,
                       workers := (s.workers.set i (.processed p)).set i .recv,
                       completed := s.completed ++ [p] }, ?_, ?_, rfl, rfl, rfl⟩
      · simp only [exec, step, hi, hh, getElem?_set_self_of_some s.workers i _ _ hi]
      · simp only [List.set_set]
        exact getElem?_set_self_of_some s.workers i _ _ hi
    · intro hash size e hh hc
      refine ⟨{ s with wg := s.wg - 1,
                       workers := ((s.workers.set i (.checked p hash size e)).set i
                         (.processed p)).set i .recv,
                       world := resolveFile io s.world p hash size e,
                       completed := s.completed ++ [p] }, ?_, ?_, rfl, rfl⟩
      · simp only [exec, step, hi, hh, hc, getElem?_set_self_of_some s.workers i _ _ hi,
          getElem?_set_self_of_some _ i _ _ (getElem?_set_self_of_some s.workers i _ _ hi)]
      · simp only [List.set_set]
        exact getElem?_set_self_of_some s.workers i _ _ hi

/-- C9 on the scenario tree with the 10 workers of `main`: a schedule that
reaches the return of `wg.Wait()`, and worker 0 failing to read `a.txt`. -/
theorem main_waits_for_dispatched_work_witness :
    (∃ s, exec toyHash (initSys numWorkers ["a.txt", "b/a.txt", "c.txt"] ⟨fsOf scenarioTree, []⟩)
          scenarioSchedule = some s ∧ s.main.pastWait = true ∧
        (∀ wk ∈ s.workers, wk.busyWith = none) ∧ s.sent.Perm s.completed) ∧
      (∃ t, exec toyHash oneSentState [.check 0 readFault, .done 0] = some t ∧
        t.workers[0]? = some .recv ∧ t.main = oneSentState.main ∧
        t.world = oneSentState.world ∧ t.completed = oneSentState.completed ++ ["a.txt"]) := by
  constructor
  · have h1 : (exec toyHash
        (initSys numWorkers ["a.txt", "b/a.txt", "c.txt"] ⟨fsOf scenarioTree, []⟩)
        scenarioSchedule).map (fun s => s.main.pastWait) = some true := by decide
    cases hs : exec toyHash
        (initSys numWorkers ["a.txt", "b/a.txt", "c.txt"] ⟨fsOf scenarioTree, []⟩)
        scenarioSchedule with
    | none =>
      rw [hs] at h1
      exact absurd h1 (by simp)
    | some s =>
      rw [hs] at h1
      have hp : s.main.pastWait = true := by simpa using h1
      exact ⟨s, rfl, hp,
        (main_waits_for_dispatched_work toyHash numWorkers ["a.txt", "b/a.txt", "c.txt"]
          ⟨fsOf scenarioTree, []⟩).1 scenarioSchedule s hs hp⟩
  · exact ((main_waits_for_dispatched_work toyHash numWorkers [] ⟨fsOf scenarioTree, []⟩).2
      oneSentState 0 "a.txt" readFault rfl).1 (by decide)

/-! ## The rows of the first files -/

theorem originals_concat (H : Content → String) (fl : List (String × Content))
    (f : String × Content) :
    originals H (fl ++ [f]) =
      if (originals H fl).any (fun r => decide (r.key = keyOf H f.2)) then originals H fl
      else originals H fl ++ [recordOf H f] := by
  simp only [originals, List.foldl_append, List.foldl_cons, List.foldl_nil]

theorem originals_mem_concat (H : Content → String) (fl : List (String × Content))
    (f : String × Content) (r : FileInfo) (hr : r ∈ originals H fl) :
    r ∈ originals H (fl ++ [f]) := by
  rw [originals_concat]
  split
  · exact hr
  · exact List.mem_append_left _ hr

theorem originals_mem_append (H : Content → String) (fl : List (String × Content))
    (r : FileInfo) (hr : r ∈ originals H fl) :
    ∀ more : List (String × Content), r ∈ originals H (fl ++ more) := by
  intro more
  induction more using List.reverseRecOn with
  | nil => simpa using hr
  | append_singleton l a ih =>
    rw [← List.append_assoc]
    exact originals_mem_concat H _ a r ih

theorem originals_sub (H : Content → String) (fl : List (String × Content)) :
    ∀ r ∈ originals H fl, ∃ g ∈ fl, r = recordOf H g := by
  induction fl using List.reverseRecOn with
  | nil => intro r hr; simp [originals] at hr
  | append_singleton l a ih =>
    intro r hr
    rw [originals_concat] at hr
    split at hr
    · obtain ⟨g, hg, hrg⟩ := ih r hr
      exact ⟨g, List.mem_append_left _ hg, hrg⟩
    · rcases List.mem_append.mp hr with h | h
      · obtain ⟨g, hg, hrg⟩ := ih r h
        exact ⟨g, List.mem_append_left _ hg, hrg⟩
      · simp only [List.mem_singleton] at h
        exact ⟨a, by simp, h⟩

theorem recordOf_key (H : Content → String) (f : String × Content) :
    (recordOf H f).key = keyOf H f.2 := rfl

theorem originals_keys (H : Content → String) (fl : List (String × Content))
    (k : String × Int) :
    (∃ r ∈ originals H fl, r.key = k) ↔ ∃ g ∈ fl, keyOf H g.2 = k := by
  induction fl using List.reverseRecOn with
  | nil => simp [originals]
  | append_singleton l a ih =>
    rw [originals_concat]
    constructor
    · rintro ⟨r, hr, hk⟩
      split at hr
      · obtain ⟨g, hg, hgk⟩ := ih.mp ⟨r, hr, hk⟩
        exact ⟨g, List.mem_append_left _ hg, hgk⟩
      · rcases List.mem_append.mp hr with h | h
        · obtain ⟨g, hg, hgk⟩ := ih.mp ⟨r, h, hk⟩
          exact ⟨g, List.mem_append_left _ hg, hgk⟩
        · simp only [List.mem_singleton] at h
          subst h
          exact ⟨a, by simp, hk⟩
    · rintro ⟨g, hg, hgk⟩
      rcases List.mem_append.mp hg with h | h
      · obtain ⟨r, hr, hk⟩ := ih.mpr ⟨g, h, hgk⟩
        refine ⟨r, ?_, hk⟩
        split
        · exact hr
        · exact List.mem_append_left _ hr
      · simp only [List.mem_singleton] at h
        subst h
        split
        · rename_i hany
          obtain ⟨r, hr, hrk⟩ := List.any_eq_true.mp hany
          exact ⟨r, hr, (by simpa using hrk : r.key = keyOf H g.2).trans hgk⟩
        · exact ⟨recordOf H g, by simp, hgk⟩

theorem originals_keys_nodup (H : Content → String) (fl : List (String × Content)) :
    ((originals H fl).map FileInfo.key).Nodup := by
  induction fl using List.reverseRecOn with
  | nil => simp [originals]
  | append_singleton l a ih =>
    rw [originals_concat]
    split
    · exact ih
    · rename_i hany
      rw [List.map_append, List.nodup_append]
      refine ⟨ih, by simp, ?_⟩
      intro k hk hk2
      simp only [List.map_cons, List.map_nil, List.mem_singleton] at hk2
      obtain ⟨r, hr, hrk⟩ := List.mem_map.mp hk
      apply hany
      exact List.any_eq_true.mpr ⟨r, hr, by simpa [recordOf_key] using hrk.trans hk2⟩

/-! ## Sequential runs in which no call fails -/

theorem processFile_ok (H : Content → String) (io : Faults) (w : World) (p : String)
    (hok : processFileFails H io w p = false) :
    ∃ hash size e, hashFile H io w.fs p = some (hash, size) ∧
      checkDuplicate io w.db hash size = some e ∧
      processFile H io w p = ⟨resolveFile io w p hash size e, false⟩ ∧
      (e ≠ "" → osMkdirAll io w.fs (dupDirOf p) = true ∧
        ∃ fs2, osRename io w.fs p (quarantinePath p) = some fs2) ∧
      (e = "" → io.insertFails = false ∧ ∀ r ∈ w.db, r.Path ≠ p) := by
  unfold processFileFails at hok
  cases hh : hashFile H io w.fs p with
  | none => simp [hh] at hok
  | some hs =>
    obtain ⟨hash, size⟩ := hs
    cases hc : checkDuplicate io w.db hash size with
    | none => simp [hh, hc] at hok
    | some e =>
      refine ⟨hash, size, e, rfl, hc, processFile_resolved H io w p hash e size hh hc, ?_, ?_⟩
      · intro he
        simp only [hh, hc, he, ne_eq, not_false_eq_true, if_true, Bool.or_eq_false_iff,
          Bool.not_eq_false', Option.isNone_eq_false_iff] at hok
        refine ⟨hok.1, ?_⟩
        exact Option.isSome_iff_exists.mp hok.2
      · intro he
        subst he
        simp only [hh, hc, ne_eq, not_true_eq_false, if_false, Bool.or_eq_false_iff] at hok
        refine ⟨hok.1, ?_⟩
        intro r hr hrp
        have := hok.2
        rw [List.any_eq_false] at this
        exact this r hr (by simpa using hrp)

theorem processFile_ok_not_fatal (H : Content → String) (io : Faults) (w : World) (p : String)
    (hok : processFileFails H io w p = false) : (processFile H io w p).fatal = false := by
  obtain ⟨hash, size, e, -, -, hpf, -, -⟩ := processFile_ok H io w p hok
  rw [hpf]

theorem run_concat (H : Content → String) (io : String → Faults) (l : List String)
    (p : String) :
    ∀ w : World, runFails H io w (l ++ [p]) = false →
      runFails H io w l = false ∧
      processFileFails H (io p) (worldAfter H io w l) p = false ∧
      worldAfter H io w (l ++ [p]) = (processFile H (io p) (worldAfter H io w l) p).world := by
  induction l with
  | nil =>
    intro w h
    simp only [List.nil_append, runFails, Bool.or_false] at h
    refine ⟨rfl, h, ?_⟩
    simp only [worldAfter, List.nil_append, runSeq, processFile_ok_not_fatal H (io p) w p h,
      Bool.false_eq_true, if_false]
  | cons q rest ih =>
    intro w h
    simp only [List.cons_append, runFails, Bool.or_eq_false_iff] at h
    obtain ⟨h1, h2, h3⟩ := ih _ h.2
    have hq := processFile_ok_not_fatal H (io q) w q h.1
    have hw : ∀ l2, worldAfter H io w (q :: l2)
        = worldAfter H io (processFile H (io q) w q).world l2 := by
      intro l2
      simp only [worldAfter, runSeq, hq, Bool.false_eq_true, if_false]
    refine ⟨?_, ?_, ?_⟩
    · simp only [runFails, Bool.or_eq_false_iff]
      exact ⟨h.1, h1⟩
    · rw [hw]
      exact h2
    · rw [List.cons_append, hw, hw]
      exact h3

theorem runSeq_ok_not_fatal (H : Content → String) (io : String → Faults) (l : List String) :
    ∀ w : World, runFails H io w l = false → (runSeq H io w l).fatal = false := by
  induction l with
  | nil => intro w _; rfl
  | cons q rest ih =>
    intro w h
    simp only [runFails, Bool.or_eq_false_iff] at h
    have hq := processFile_ok_not_fatal H (io q) w q h.1
    simp only [runSeq, hq, Bool.false_eq_true, if_false]
    exact ih _ h.2

theorem processFile_clean (H : Content → String) (io : Faults) (W : World)
    (f : String × Content) (hread : W.fs.bytesAt f.1 = some f.2)
    (hne : ∀ r ∈ W.db, r.Path ≠ "") (hok : processFileFails H io W f.1 = false) :
    ((∀ r ∈ W.db, r.key ≠ keyOf H f.2) →
        (processFile H io W f.1).world.fs = W.fs ∧
        (processFile H io W f.1).world.db = W.db ++ [recordOf H f]) ∧
      ((∃ r ∈ W.db, r.key = keyOf H f.2) →
        (processFile H io W f.1).world.db = W.db ∧
        Renamed W.fs (processFile H io W f.1).world.fs f.1 (quarantinePath f.1)) := by
  obtain ⟨hash, size, e, hh, hc, hpf, hdup, hins⟩ := processFile_ok H io W f.1 hok
  obtain ⟨-, -, file, hfile, hhash, hsize⟩ := hashFile_some H io W.fs f.1 hash size hh
  have hb : file.bytes = f.2 := by
    simp only [FS.bytesAt, hfile, Option.map_some', Option.some.injEq] at hread
    exact hread
  rw [hb] at hhash hsize
  subst hhash hsize
  rw [hpf]
  constructor
  · intro hnone
    have he0 : e = "" := by
      by_contra hne0
      obtain ⟨r, hr, hk, -⟩ := checkDuplicate_found io W.db (H f.2) e _ hc hne0
      exact hnone r hr hk
    subst he0
    obtain ⟨hi, hfresh⟩ := hins rfl
    refine ⟨by simp [resolveFile], ?_⟩
    have hsave : saveFile io W.db ⟨f.1, (f.2.length : Int), H f.2⟩
        = W.db ++ [recordOf H f] := by
      unfold saveFile
      rw [if_neg]
      · rfl
      · rintro (h | h)
        · rw [hi] at h
          exact absurd h (by simp)
        · obtain ⟨r, hr, hrp⟩ := List.any_eq_true.mp h
          exact hfresh r hr (by simpa using hrp)
    simp [resolveFile, hsave]
  · rintro ⟨r, hr, hk⟩
    have he0 : e ≠ "" := by
      intro h0
      subst h0
      exact checkDuplicate_empty io W.db (H f.2) _ hne hc r hr hk
    obtain ⟨hmk, fs2, hren⟩ := hdup he0
    refine ⟨by simp [resolveFile, he0], ?_⟩
    have : (resolveFile io W f.1 (H f.2) (f.2.length : Int) e).fs = fs2 := by
      simp [resolveFile, he0, handleDuplicate_def, hmk, hren]
    rw [this]
    exact osRename_renamed io W.fs fs2 f.1 (quarantinePath f.1) hren

/-! ## The state after a run from an empty index -/

theorem resolve_of_cwd (fs1 fs2 : FS) (h : fs2.cwd = fs1.cwd) (x : String) :
    fs2.resolve x = fs1.resolve x := by
  simp [FS.resolve, h]

theorem Listed.init (fs0 : FS) (fl : List (String × Content)) (a : String × Content)
    (h : Listed fs0 (fl ++ [a])) : Listed fs0 fl := by
  obtain ⟨h1, h2, h3⟩ := h
  refine ⟨fun f hf => h1 f (List.mem_append_left _ hf), ?_,
    fun f hf g hg => h3 f (List.mem_append_left _ hf) g (List.mem_append_left _ hg)⟩
  rw [List.map_append, List.nodup_append] at h2
  exact h2.1

theorem Listed.last (fs0 : FS) (fl : List (String × Content)) (a : String × Content)
    (h : Listed fs0 (fl ++ [a])) :
    a.1 ≠ "" ∧ fs0.bytesAt a.1 = some a.2 ∧
      ∀ g ∈ fl, fs0.resolve g.1 ≠ fs0.resolve a.1 ∧
        fs0.resolve a.1 ≠ fs0.resolve (quarantinePath g.1) ∧
        fs0.resolve g.1 ≠ fs0.resolve (quarantinePath a.1) ∧ g.1 ≠ a.1 := by
  obtain ⟨h1, h2, h3⟩ := h
  have ha : a ∈ fl ++ [a] := by simp
  refine ⟨(h1 a ha).1, (h1 a ha).2, ?_⟩
  intro g hg
  have hga : fs0.resolve g.1 ≠ fs0.resolve a.1 := by
    rw [List.map_append, List.nodup_append] at h2
    intro heq
    exact h2.2.2 (List.mem_map_of_mem (fun f => fs0.resolve f.1) hg) (by simp [heq])
  have hraw : g.1 ≠ a.1 := fun h => hga (by rw [h])
  have hne : g ≠ a := fun h => hraw (by rw [h])
  exact ⟨hga, h3 a ha g (List.mem_append_left _ hg) (Ne.symm hne),
    h3 g (List.mem_append_left _ hg) a ha hne, hraw⟩

theorem Listed.take (fs0 : FS) (l1 : List (String × Content)) :
    ∀ l2 : List (String × Content), Listed fs0 (l1 ++ l2) → Listed fs0 l1 := by
  intro l2
  induction l2 using List.reverseRecOn with
  | nil => intro h; simpa using h
  | append_singleton l a ih =>
    intro h
    rw [← List.append_assoc] at h
    exact ih (Listed.init fs0 _ a h)

theorem Listed.raw_nodup (fs0 : FS) (fl : List (String × Content)) (h : Listed fs0 fl) :
    (fl.map Prod.fst).Nodup := by
  have h2 := h.2.1
  have : fl.map (fun f => fs0.resolve f.1) = (fl.map Prod.fst).map fs0.resolve := by
    simp [List.map_map, Function.comp]
  rw [this] at h2
  exact List.Nodup.of_map _ h2

theorem run_inv (H : Content → String) (io : String → Faults) (fs0 : FS)
    (fl : List (String × Content)) :
    Listed fs0 fl → runFails H io ⟨fs0, []⟩ (fl.map Prod.fst) = false →
      (worldAfter H io ⟨fs0, []⟩ (fl.map Prod.fst)).fs.cwd = fs0.cwd ∧
      (worldAfter H io ⟨fs0, []⟩ (fl.map Prod.fst)).db = originals H fl ∧
      (∀ x, (∀ g ∈ fl, fs0.resolve x ≠ fs0.resolve g.1 ∧
          fs0.resolve x ≠ fs0.resolve (quarantinePath g.1)) →
        (worldAfter H io ⟨fs0, []⟩ (fl.map Prod.fst)).fs.fileAt x = fs0.fileAt x) ∧
      (∀ f ∈ fl, recordOf H f ∈ (worldAfter H io ⟨fs0, []⟩ (fl.map Prod.fst)).db →
        (worldAfter H io ⟨fs0, []⟩ (fl.map Prod.fst)).fs.bytesAt f.1 = some f.2) := by
  induction fl using List.reverseRecOn with
  | nil =>
    intro _ _
    refine ⟨rfl, rfl, fun _ _ => rfl, ?_⟩
    intro f hf
    simp at hf
  | append_singleton l a ih =>
    intro hl hrun
    rw [List.map_append, List.map_cons, List.map_nil] at hrun ⊢
    obtain ⟨hrun1, hok, hw⟩ := run_concat H io (l.map Prod.fst) a.1 _ hrun
    obtain ⟨hcwd, hdb, hframe, horig⟩ := ih (Listed.init fs0 l a hl) hrun1
    obtain ⟨hp, hread0, hsep⟩ := Listed.last fs0 l a hl
    rw [hw]
    generalize worldAfter H io ⟨fs0, []⟩ (l.map Prod.fst) = W at hcwd hdb hframe horig hok
    have hres : ∀ x, W.fs.resolve x = fs0.resolve x := resolve_of_cwd fs0 W.fs hcwd
    have hread : W.fs.bytesAt a.1 = some a.2 := by
      unfold FS.bytesAt
      rw [hframe a.1 (fun g hg => ⟨(hsep g hg).1.symm, (hsep g hg).2.1⟩)]
      exact hread0
    have hrows : ∀ r ∈ W.db, ∃ g ∈ l, r = recordOf H g := by
      rw [hdb]
      exact originals_sub H l
    have hne : ∀ r ∈ W.db, r.Path ≠ "" := by
      intro r hr
      obtain ⟨g, hg, rfl⟩ := hrows r hr
      exact ((Listed.init fs0 l a hl).1 g hg).1
    have hfresh : ∀ r ∈ W.db, r.Path ≠ a.1 := by
      intro r hr
      obtain ⟨g, hg, rfl⟩ := hrows r hr
      exact (hsep g hg).2.2.2
    obtain ⟨hfirst, hdup⟩ := processFile_clean H (io a.1) W a hread hne hok
    rw [originals_concat, ← hdb]
    by_cases hany : (W.db.any fun r => decide (r.key = keyOf H a.2)) = true
    · rw [if_pos hany]
      obtain ⟨r, hr, hrk⟩ := List.any_eq_true.mp hany
      obtain ⟨hdb2, hren⟩ := hdup ⟨r, hr, by simpa using hrk⟩
      have hfr : ∀ x, fs0.resolve x ≠ fs0.resolve a.1 →
          fs0.resolve x ≠ fs0.resolve (quarantinePath a.1) →
          (processFile H (io a.1) W a.1).world.fs.fileAt x = W.fs.fileAt x := by
        intro x hx1 hx2
        apply Renamed.frame W.fs _ a.1 (quarantinePath a.1) x hren
        · rw [hres, hres]
          exact hx1
        · rw [hres, hres]
          exact hx2
      refine ⟨(Renamed.cwd_eq _ _ _ _ hren).trans hcwd, hdb2, ?_, ?_⟩
      · intro x hx
        have hxa := hx a (by simp)
        rw [hfr x hxa.1 hxa.2]
        exact hframe x (fun g hg => hx g (List.mem_append_left _ hg))
      · intro f hf hrec
        rw [hdb2] at hrec
        rcases List.mem_append.mp hf with h | h
        · unfold FS.bytesAt
          rw [hfr f.1 (hsep f h).1 (hsep f h).2.2.1]
          exact horig f h hrec
        · simp only [List.mem_singleton] at h
          subst h
          exact absurd rfl (hfresh _ hrec)
    · rw [if_neg hany]
      have hnone : ∀ r ∈ W.db, r.key ≠ keyOf H a.2 := by
        intro r hr hk
        exact hany (List.any_eq_true.mpr ⟨r, hr, by simpa using hk⟩)
      obtain ⟨hfs2, hdb2⟩ := hfirst hnone
      refine ⟨by rw [hfs2]; exact hcwd, hdb2, ?_, ?_⟩
      · intro x hx
        rw [hfs2]
        exact hframe x (fun g hg => hx g (List.mem_append_left _ hg))
      · intro f hf hrec
        rw [hfs2]
        rw [hdb2] at hrec
        rcases List.mem_append.mp hf with h | h
        · rcases List.mem_append.mp hrec with h2 | h2
          · exact horig f h h2
          · simp only [List.mem_singleton] at h2
            have : f.1 = a.1 := congrArg FileInfo.Path h2
            exact absurd this (hsep f h).2.2.2
        · simp only [List.mem_singleton] at h
          subst h
          exact hread

theorem run_last (H : Content → String) (io : String → Faults) (fs0 : FS)
    (l : List (String × Content)) (a : String × Content) (hl : Listed fs0 (l ++ [a]))
    (hrun : runFails H io ⟨fs0, []⟩ ((l ++ [a]).map Prod.fst) = false) :
    ((∀ g ∈ l, keyOf H g.2 ≠ keyOf H a.2) →
        (worldAfter H io ⟨fs0, []⟩ ((l ++ [a]).map Prod.fst)).fs
          = (worldAfter H io ⟨fs0, []⟩ (l.map Prod.fst)).fs ∧
        (worldAfter H io ⟨fs0, []⟩ ((l ++ [a]).map Prod.fst)).db
          = (worldAfter H io ⟨fs0, []⟩ (l.map Prod.fst)).db ++ [recordOf H a]) ∧
      ((∃ g ∈ l, keyOf H g.2 = keyOf H a.2) →
        (worldAfter H io ⟨fs0, []⟩ ((l ++ [a]).map Prod.fst)).db
          = (worldAfter H io ⟨fs0, []⟩ (l.map Prod.fst)).db ∧
        Renamed (worldAfter H io ⟨fs0, []⟩ (l.map Prod.fst)).fs
          (worldAfter H io ⟨fs0, []⟩ ((l ++ [a]).map Prod.fst)).fs a.1 (quarantinePath a.1)) := by
  rw [List.map_append, List.map_cons, List.map_nil] at hrun ⊢
  obtain ⟨hrun1, hok, hw⟩ := run_concat H io (l.map Prod.fst) a.1 _ hrun
  obtain ⟨-, hdb, hframe, -⟩ := run_inv H io fs0 l (Listed.init fs0 l a hl) hrun1
  obtain ⟨hp, hread0, hsep⟩ := Listed.last fs0 l a hl
  rw [hw]
  generalize worldAfter H io ⟨fs0, []⟩ (l.map Prod.fst) = W at hdb hframe hok
  have hread : W.fs.bytesAt a.1 = some a.2 := by
    unfold FS.bytesAt
    rw [hframe a.1 (fun g hg => ⟨(hsep g hg).1.symm, (hsep g hg).2.1⟩)]
    exact hread0
  have hrows : ∀ r ∈ W.db, ∃ g ∈ l, r = recordOf H g := by
    rw [hdb]
    exact originals_sub H l
  have hne : ∀ r ∈ W.db, r.Path ≠ "" := by
    intro r hr
    obtain ⟨g, hg, rfl⟩ := hrows r hr
    exact ((Listed.init fs0 l a hl).1 g hg).1
  obtain ⟨hfirst, hdup⟩ := processFile_clean H (io a.1) W a hread hne hok
  constructor
  · intro hno
    apply hfirst
    intro r hr hk
    rw [hdb] at hr
    obtain ⟨g, hg, hgk⟩ := (originals_keys H l _).mp ⟨r, hr, hk⟩
    exact hno g hg hgk
  · rintro ⟨g, hg, hgk⟩
    apply hdup
    rw [hdb]
    exact (originals_keys H l _).mpr ⟨g, hg, hgk⟩

theorem originals_skips_duplicate (H : Content → String) (pre : List (String × Content))
    (f : String × Content) (hdup : ∃ g ∈ pre, keyOf H g.2 = keyOf H f.2) :
    ∀ post : List (String × Content), ((pre ++ f :: post).map Prod.fst).Nodup →
      ∀ r ∈ originals H (pre ++ f :: post), r.Path ≠ f.1 := by
  intro post
  induction post using List.reverseRecOn with
  | nil =>
    intro hnd r hr
    have hcat : pre ++ [f] = pre ++ f :: [] := rfl
    rw [← hcat, originals_concat, if_pos] at hr
    · obtain ⟨g, hg, rfl⟩ := originals_sub H pre r hr
      rw [List.map_append, List.nodup_append] at hnd
      intro heq
      exact hnd.2.2 (List.mem_map_of_mem Prod.fst hg) (by simp [recordOf] at heq; simp [heq])
    · obtain ⟨r0, hr0, hk0⟩ := (originals_keys H pre _).mpr hdup
      exact List.any_eq_true.mpr ⟨r0, hr0, by simpa using hk0⟩
  | append_singleton l a ih =>
    intro hnd r hr
    have hcat : pre ++ f :: (l ++ [a]) = (pre ++ f :: l) ++ [a] := by simp
    rw [hcat] at hnd hr
    have hnd2 : ((pre ++ f :: l).map Prod.fst).Nodup := by
      rw [List.map_append, List.nodup_append] at hnd
      exact hnd.1
    rw [originals_concat] at hr
    split at hr
    · exact ih hnd2 r hr
    · rcases List.mem_append.mp hr with h | h
      · exact ih hnd2 r h
      · simp only [List.mem_singleton] at h
        subst h
        rw [List.map_append, List.nodup_append] at hnd
        intro heq
        have hf : f.1 ∈ List.map Prod.fst (pre ++ f :: l) := by simp
        exact hnd.2.2 hf (by simp [recordOf] at heq; simp [heq])

theorem originals_first_mem (H : Content → String) (pre post : List (String × Content))
    (f : String × Content) (hfirst : ∀ g ∈ pre, keyOf H g.2 ≠ keyOf H f.2) :
    recordOf H f ∈ originals H (pre ++ f :: post) := by
  have hcat : pre ++ f :: post = (pre ++ [f]) ++ post := by simp
  rw [hcat]
  apply originals_mem_append
  rw [originals_concat, if_neg]
  · simp
  · intro hany
    obtain ⟨r, hr, hk⟩ := List.any_eq_true.mp hany
    obtain ⟨g, hg, hgk⟩ := (originals_keys H pre _).mp ⟨r, hr, by simpa using hk⟩
    exact hfirst g hg hgk

theorem scenario_listed : Listed (fsOf scenarioTree) scenarioTree := by
  unfold Listed
  decide

theorem hashFile_at (H : Content → String) (fs : FS) (p : String) (file : File)
    (hp : p ≠ "") (hf : fs.fileAt p = some file) :
    hashFile H noFaults fs p = some (H file.bytes, (file.bytes.length : Int)) := by
  simp [hashFile, noFaults, hp, hf]

theorem scenario_run (H : Content → String) (hXY : H bytesX ≠ H bytesY) :
    worldAfter H (fun _ => noFaults) ⟨fsOf scenarioTree, []⟩ ["a.txt", "b/a.txt", "c.txt"]
      = ⟨handleDuplicate noFaults (fsOf scenarioTree) "b/a.txt" "a.txt",
          [⟨"a.txt", 1, H bytesX⟩, ⟨"c.txt", 1, H bytesY⟩]⟩ := by
  have h1 : hashFile H noFaults (fsOf scenarioTree) "a.txt" = some (H bytesX, 1) :=
    hashFile_at H (fsOf scenarioTree) "a.txt" ⟨0, bytesX⟩ (by decide) (by decide)
  have h2 : hashFile H noFaults (fsOf scenarioTree) "b/a.txt" = some (H bytesX, 1) :=
    hashFile_at H (fsOf scenarioTree) "b/a.txt" ⟨1, bytesX⟩ (by decide) (by decide)
  have h3 : hashFile H noFaults (handleDuplicate noFaults (fsOf scenarioTree) "b/a.txt" "a.txt")
      "c.txt" = some (H bytesY, 1) :=
    hashFile_at H _ "c.txt" ⟨2, bytesY⟩ (by decide) (by decide)
  have c1 : checkDuplicate noFaults [] (H bytesX) 1 = some "" := by
    simp [checkDuplicate, noFaults]
  have c2 : checkDuplicate noFaults [⟨"a.txt", 1, H bytesX⟩] (H bytesX) 1 = some "a.txt" := by
    simp [checkDuplicate, noFaults]
  have c3 : checkDuplicate noFaults [⟨"a.txt", 1, H bytesX⟩] (H bytesY) 1 = some "" := by
    simp [checkDuplicate, noFaults, hXY]
  have p1 : processFile H noFaults ⟨fsOf scenarioTree, []⟩ "a.txt"
      = ⟨⟨fsOf scenarioTree, [⟨"a.txt", 1, H bytesX⟩]⟩, false⟩ := by
    rw [processFile_resolved H noFaults _ "a.txt" (H bytesX) "" 1 h1 c1]
    simp [resolveFile, saveFile, noFaults]
  have p2 : processFile H noFaults ⟨fsOf scenarioTree, [⟨"a.txt", 1, H bytesX⟩]⟩ "b/a.txt"
      = ⟨⟨handleDuplicate noFaults (fsOf scenarioTree) "b/a.txt" "a.txt",
          [⟨"a.txt", 1, H bytesX⟩]⟩, false⟩ := by
    rw [processFile_resolved H noFaults _ "b/a.txt" (H bytesX) "a.txt" 1 h2 c2]
    simp [resolveFile]
  have p3 : processFile H noFaults
      ⟨handleDuplicate noFaults (fsOf scenarioTree) "b/a.txt" "a.txt",
        [⟨"a.txt", 1, H bytesX⟩]⟩ "c.txt"
      = ⟨⟨handleDuplicate noFaults (fsOf scenarioTree) "b/a.txt" "a.txt",
          [⟨"a.txt", 1, H bytesX⟩, ⟨"c.txt", 1, H bytesY⟩]⟩, false⟩ := by
    rw [processFile_resolved H noFaults _ "c.txt" (H bytesY) "" 1 h3 c3]
    simp [resolveFile, saveFile, noFaults]
  simp only [worldAfter, runSeq, p1, p2, p3, Bool.false_eq_true, if_false]

/-- C5, as stated, fails: in the tree `a.txt = X`, `b/a.txt = X`,
`b/duplicate_to_be_deleted = Z` the files are readable, at distinct paths, and
none is at the quarantine destination of another. `b/a.txt` has the hash and
size of the earlier `a.txt`, but `os.MkdirAll` fails on
`b/duplicate_to_be_deleted`, which is a regular file: after the run `b/a.txt`
is still at its path, nothing is at its quarantine path, it has no row, and
the filesystem is as it was. -/
theorem blocked_duplicate_is_not_moved :
    Listed (fsOf blockedTree) blockedTree ∧
      keyOf toyHash bytesX = keyOf toyHash bytesX ∧
      osMkdirAll noFaults (fsOf blockedTree) (dupDirOf "b/a.txt") = false ∧
      (runSeq toyHash (fun _ => noFaults) ⟨fsOf blockedTree, []⟩
        ["a.txt", "b/a.txt", "b/duplicate_to_be_deleted"]).fatal = false ∧
      (runSeq toyHash (fun _ => noFaults) ⟨fsOf blockedTree, []⟩
        ["a.txt", "b/a.txt", "b/duplicate_to_be_deleted"]).world.fs = fsOf blockedTree ∧
      (runSeq toyHash (fun _ => noFaults) ⟨fsOf blockedTree, []⟩
        ["a.txt", "b/a.txt", "b/duplicate_to_be_deleted"]).world.fs.bytesAt "b/a.txt"
        = some bytesX ∧
      (runSeq toyHash (fun _ => noFaults) ⟨fsOf blockedTree, []⟩
        ["a.txt", "b/a.txt", "b/duplicate_to_be_deleted"]).world.fs.bytesAt
          (quarantinePath "b/a.txt") = none ∧
      (runSeq toyHash (fun _ => noFaults) ⟨fsOf blockedTree, []⟩
        ["a.txt", "b/a.txt", "b/duplicate_to_be_deleted"]).world.db
        = [⟨"a.txt", 1, "X"⟩, ⟨"b/duplicate_to_be_deleted", 1, "Z"⟩] := by
  refine ⟨?_, rfl, by decide, by decide, by decide, by decide, by decide, by decide⟩
  unfold Listed
  decide

theorem runFails_take (H : Content → String) (io : String → Faults) (w : World)
    (l1 : List String) :
    ∀ l2 : List String, runFails H io w (l1 ++ l2) = false → runFails H io w l1 = false := by
  intro l2
  induction l2 using List.reverseRecOn with
  | nil => intro h; simpa using h
  | append_singleton l a ih =>
    intro h
    rw [← List.append_assoc] at h
    exact ih (run_concat H io (l1 ++ l) a w h).1

/-- C5, amended. Sequential classification by fingerprint, for runs in which no
call fails. Let `files` be readable files of `fs0` at distinct paths, none at
the quarantine destination of another, and run `processFile` on them in order
from an empty index, whatever is refused, such that no call of the run fails.
(1) A file with no earlier file of the same `(hash, size)` is recorded in the
final index and is at its path with its bytes at the end, and its own step
leaves the filesystem as it was; a file with an earlier file of the same pair
has no row in the final index, and its own step is a successful `os.Rename`
to its quarantine path (the file is then there and no longer at its own path,
unless both paths named one file already) and leaves the index as it was.
(2) The run ends without `log.Fatal`; the final index is the rows of the first
file of each pair, in order: no two rows share a pair, and the pairs of the
rows are the pairs of the files.
(3) Two files of equal size and different digests are both recorded.
(4) On the tree `a.txt = X`, `b/a.txt = X`, `c.txt = Y`, where no call fails
unless refused, the index ends with exactly the two rows of `a.txt` and
`c.txt`, and `b/a.txt` is at `b/duplicate_to_be_deleted/a.txt`. -/
theorem sequential_classification (H : Content → String) :
    (∀ (io : String → Faults) (fs0 : FS) (files pre post : List (String × Content))
        (f : String × Content),
        Listed fs0 files → runFails H io ⟨fs0, []⟩ (files.map Prod.fst) = false →
        files = pre ++ f :: post →
        ((∀ g ∈ pre, keyOf H g.2 ≠ keyOf H f.2) →
          recordOf H f ∈ (worldAfter H io ⟨fs0, []⟩ (files.map Prod.fst)).db ∧
          (worldAfter H io ⟨fs0, []⟩ (files.map Prod.fst)).fs.bytesAt f.1 = some f.2 ∧
          (worldAfter H io ⟨fs0, []⟩ ((pre ++ [f]).map Prod.fst)).fs
            = (worldAfter H io ⟨fs0, []⟩ (pre.map Prod.fst)).fs) ∧
        ((∃ g ∈ pre, keyOf H g.2 = keyOf H f.2) →
          (∀ r ∈ (worldAfter H io ⟨fs0, []⟩ (files.map Prod.fst)).db, r.Path ≠ f.1) ∧
          Renamed (worldAfter H io ⟨fs0, []⟩ (pre.map Prod.fst)).fs
            (worldAfter H io ⟨fs0, []⟩ ((pre ++ [f]).map Prod.fst)).fs f.1
            (quarantinePath f.1) ∧
          (worldAfter H io ⟨fs0, []⟩ ((pre ++ [f]).map Prod.fst)).db
            = (worldAfter H io ⟨fs0, []⟩ (pre.map Prod.fst)).db)) ∧
      (∀ (io : String → Faults) (fs0 : FS) (files : List (String × Content)),
        Listed fs0 files → runFails H io ⟨fs0, []⟩ (files.map Prod.fst) = false →
        (runSeq H io ⟨fs0, []⟩ (files.map Prod.fst)).fatal = false ∧
        (worldAfter H io ⟨fs0, []⟩ (files.map Prod.fst)).db = originals H files ∧
        ((worldAfter H io ⟨fs0, []⟩ (files.map Prod.fst)).db.map FileInfo.key).Nodup ∧
        ∀ k, k ∈ (worldAfter H io ⟨fs0, []⟩ (files.map Prod.fst)).db.map FileInfo.key ↔
          ∃ f ∈ files, keyOf H f.2 = k) ∧
      (∀ (io : String → Faults) (fs0 : FS) (f g : String × Content), Listed fs0 [f, g] →
        runFails H io ⟨fs0, []⟩ [f.1, g.1] = false →
        f.2.length = g.2.length → H f.2 ≠ H g.2 →
        (worldAfter H io ⟨fs0, []⟩ [f.1, g.1]).db = [recordOf H f, recordOf H g] ∧
        (worldAfter H io ⟨fs0, []⟩ [f.1, g.1]).fs.bytesAt f.1 = some f.2 ∧
        (worldAfter H io ⟨fs0, []⟩ [f.1, g.1]).fs.bytesAt g.1 = some g.2) ∧
      (H bytesX ≠ H bytesY →
        (worldAfter H (fun _ => noFaults) ⟨fsOf scenarioTree, []⟩
          ["a.txt", "b/a.txt", "c.txt"]).db
          = [⟨"a.txt", 1, H bytesX⟩, ⟨"c.txt", 1, H bytesY⟩] ∧
        (worldAfter H (fun _ => noFaults) ⟨fsOf scenarioTree, []⟩
          ["a.txt", "b/a.txt", "c.txt"]).db.length = 2 ∧
        (worldAfter H (fun _ => noFaults) ⟨fsOf scenarioTree, []⟩
          ["a.txt", "b/a.txt", "c.txt"]).fs.bytesAt "b/duplicate_to_be_deleted/a.txt"
          = some bytesX ∧
        (worldAfter H (fun _ => noFaults) ⟨fsOf scenarioTree, []⟩
          ["a.txt", "b/a.txt", "c.txt"]).fs.bytesAt "b/a.txt" = none ∧
        (worldAfter H (fun _ => noFaults) ⟨fsOf scenarioTree, []⟩
          ["a.txt", "b/a.txt", "c.txt"]).fs.bytesAt "a.txt" = some bytesX ∧
        (worldAfter H (fun _ => noFaults) ⟨fsOf scenarioTree, []⟩
          ["a.txt", "b/a.txt", "c.txt"]).fs.bytesAt "c.txt" = some bytesY) := by
  have part1 : ∀ (io : String → Faults) (fs0 : FS) (files pre post : List (String × Content))
      (f : String × Content),
      Listed fs0 files → runFails H io ⟨fs0, []⟩ (files.map Prod.fst) = false →
      files = pre ++ f :: post →
      ((∀ g ∈ pre, keyOf H g.2 ≠ keyOf H f.2) →
        recordOf H f ∈ (worldAfter H io ⟨fs0, []⟩ (files.map Prod.fst)).db ∧
        (worldAfter H io ⟨fs0, []⟩ (files.map Prod.fst)).fs.bytesAt f.1 = some f.2 ∧
        (worldAfter H io ⟨fs0, []⟩ ((pre ++ [f]).map Prod.fst)).fs
          = (worldAfter H io ⟨fs0, []⟩ (pre.map Prod.fst)).fs) ∧
      ((∃ g ∈ pre, keyOf H g.2 = keyOf H f.2) →
        (∀ r ∈ (worldAfter H io ⟨fs0, []⟩ (files.map Prod.fst)).db, r.Path ≠ f.1) ∧
        Renamed (worldAfter H io ⟨fs0, []⟩ (pre.map Prod.fst)).fs
          (worldAfter H io ⟨fs0, []⟩ ((pre ++ [f]).map Prod.fst)).fs f.1
          (quarantinePath f.1) ∧
        (worldAfter H io ⟨fs0, []⟩ ((pre ++ [f]).map Prod.fst)).db
          = (worldAfter H io ⟨fs0, []⟩ (pre.map Prod.fst)).db) := by
    intro io fs0 files pre post f hl hrun hfiles
    obtain ⟨-, hdb, -, horig⟩ := run_inv H io fs0 files hl hrun
    have hcat : files = (pre ++ [f]) ++ post := by simp [hfiles]
    have hpre : Listed fs0 (pre ++ [f]) := by
      apply Listed.take fs0 (pre ++ [f]) post
      rw [← hcat]
      exact hl
    have hrunpre : runFails H io ⟨fs0, []⟩ ((pre ++ [f]).map Prod.fst) = false := by
      apply runFails_take H io _ ((pre ++ [f]).map Prod.fst) (post.map Prod.fst)
      rw [← List.map_append, ← hcat]
      exact hrun
    obtain ⟨hstep1, hstep2⟩ := run_last H io fs0 pre f hpre hrunpre
    constructor
    · intro hfirst
      have hmem : recordOf H f ∈ (worldAfter H io ⟨fs0, []⟩ (files.map Prod.fst)).db := by
        rw [hdb, hfiles]
        exact originals_first_mem H pre post f hfirst
      exact ⟨hmem, horig f (by simp [hfiles]) hmem, (hstep1 hfirst).1⟩
    · intro hdup
      refine ⟨?_, (hstep2 hdup).2, (hstep2 hdup).1⟩
      rw [hdb, hfiles]
      exact originals_skips_duplicate H pre f hdup post
        (by rw [← hfiles]; exact Listed.raw_nodup fs0 files hl)
  have part2 : ∀ (io : String → Faults) (fs0 : FS) (files : List (String × Content)),
      Listed fs0 files → runFails H io ⟨fs0, []⟩ (files.map Prod.fst) = false →
      (runSeq H io ⟨fs0, []⟩ (files.map Prod.fst)).fatal = false ∧
      (worldAfter H io ⟨fs0, []⟩ (files.map Prod.fst)).db = originals H files ∧
      ((worldAfter H io ⟨fs0, []⟩ (files.map Prod.fst)).db.map FileInfo.key).Nodup ∧
      ∀ k, k ∈ (worldAfter H io ⟨fs0, []⟩ (files.map Prod.fst)).db.map FileInfo.key ↔
        ∃ f ∈ files, keyOf H f.2 = k := by
    intro io fs0 files hl hrun
    obtain ⟨-, hdb, -, -⟩ := run_inv H io fs0 files hl hrun
    refine ⟨runSeq_ok_not_fatal H io _ _ hrun, hdb, ?_, ?_⟩
    · rw [hdb]
      exact originals_keys_nodup H files
    · intro k
      rw [hdb, ← originals_keys H files k]
      simp only [List.mem_map]
  refine ⟨part1, part2, ?_, ?_⟩
  · intro io fs0 f g hl hrun hlen hHash
    have hrun2 : runFails H io ⟨fs0, []⟩ (([f, g] : List (String × Content)).map Prod.fst)
        = false := hrun
    obtain ⟨-, hdb, -, -⟩ := part2 io fs0 [f, g] hl hrun2
    have hkey : keyOf H f.2 ≠ keyOf H g.2 := fun h => hHash (congrArg Prod.fst h)
    have hdb2 : originals H [f, g] = [recordOf H f, recordOf H g] := by
      simp [originals, recordOf_key, hkey]
    simp only [List.map_cons, List.map_nil] at hdb
    refine ⟨hdb.trans hdb2, ?_, ?_⟩
    · exact ((part1 io fs0 [f, g] [] [g] f hl hrun2 rfl).1 (by simp)).2.1
    · exact ((part1 io fs0 [f, g] [f] [] g hl hrun2 rfl).1 (by simpa using hkey)).2.1
  · intro hXY
    rw [scenario_run H hXY]
    have hfs : ∀ (db : Index) (p : String),
        (⟨handleDuplicate noFaults (fsOf scenarioTree) "b/a.txt" "a.txt", db⟩ : World).fs.bytesAt p
          = (handleDuplicate noFaults (fsOf scenarioTree) "b/a.txt" "a.txt").bytesAt p :=
      fun _ _ => rfl
    refine ⟨rfl, rfl, ?_, ?_, ?_, ?_⟩
    · rw [hfs]; decide
    · rw [hfs]; decide
    · rw [hfs]; decide
    · rw [hfs]; decide

/-- C5 amended, on the scenario tree with the stand-in digest and nothing
refused: no call fails; `b/a.txt`, which has the bytes of the earlier `a.txt`,
gets no row and is renamed by its own step, and the run ends with the two rows
of `a.txt` and `c.txt`. -/
theorem sequential_classification_witness :
    ((∀ r ∈ (worldAfter toyHash (fun _ => noFaults) ⟨fsOf scenarioTree, []⟩
            (scenarioTree.map Prod.fst)).db, r.Path ≠ "b/a.txt") ∧
        Renamed (worldAfter toyHash (fun _ => noFaults) ⟨fsOf scenarioTree, []⟩ ["a.txt"]).fs
          (worldAfter toyHash (fun _ => noFaults) ⟨fsOf scenarioTree, []⟩
            ["a.txt", "b/a.txt"]).fs "b/a.txt" (quarantinePath "b/a.txt") ∧
        (worldAfter toyHash (fun _ => noFaults) ⟨fsOf scenarioTree, []⟩ ["a.txt", "b/a.txt"]).db
          = (worldAfter toyHash (fun _ => noFaults) ⟨fsOf scenarioTree, []⟩ ["a.txt"]).db) ∧
      ((worldAfter toyHash (fun _ => noFaults) ⟨fsOf scenarioTree, []⟩
          ["a.txt", "b/a.txt", "c.txt"]).db
          = [⟨"a.txt", 1, toyHash bytesX⟩, ⟨"c.txt", 1, toyHash bytesY⟩] ∧
        (worldAfter toyHash (fun _ => noFaults) ⟨fsOf scenarioTree, []⟩
          ["a.txt", "b/a.txt", "c.txt"]).db.length = 2 ∧
        (worldAfter toyHash (fun _ => noFaults) ⟨fsOf scenarioTree, []⟩
          ["a.txt", "b/a.txt", "c.txt"]).fs.bytesAt "b/duplicate_to_be_deleted/a.txt"
          = some bytesX ∧
        (worldAfter toyHash (fun _ => noFaults) ⟨fsOf scenarioTree, []⟩
          ["a.txt", "b/a.txt", "c.txt"]).fs.bytesAt "b/a.txt" = none ∧
        (worldAfter toyHash (fun _ => noFaults) ⟨fsOf scenarioTree, []⟩
          ["a.txt", "b/a.txt", "c.txt"]).fs.bytesAt "a.txt" = some bytesX ∧
        (worldAfter toyHash (fun _ => noFaults) ⟨fsOf scenarioTree, []⟩
          ["a.txt", "b/a.txt", "c.txt"]).fs.bytesAt "c.txt" = some bytesY) :=
  ⟨((sequential_classification toyHash).1 (fun _ => noFaults) (fsOf scenarioTree) scenarioTree
      [("a.txt", bytesX)] [("c.txt", bytesY)] ("b/a.txt", bytesX) scenario_listed
      (by decide) rfl).2 ⟨("a.txt", bytesX), by simp, rfl⟩,
   (sequential_classification toyHash).2.2.2 (by decide)⟩

end Dedup
